import Mathlib

/-!
# Go concurrency patterns: fan-in, fan-out, tee, pipeline

A verification development for the channel programs of the repository.  Every
Go function that starts goroutines is embedded as a transition system: the
state records where each goroutine stands in its body and what each channel
endpoint still holds, and `step` fires one goroutine statement chosen by a
scheduler action.  Unbuffered channel operations are rendezvous: one action
moves an item from the sender to the receiver.  An execution is a list of
scheduler actions, replayed by `run`.
-/

namespace GoPatterns

/-- Replays a schedule: `run step s acts` fires the actions one after the other
and is `none` as soon as one of them is not enabled. -/
def run {σ α : Type} (step : σ → α → Option σ) : σ → List α → Option σ
  | s, [] => some s
  | s, a :: as => (step s a).bind fun s' => run step s' as

/-! ## fan_in/main.go : `MergeChannels` (and `fanIn`, same body) -/

namespace FanIn

/-- Control point of one relay goroutine
`go func(ch) { defer wg.Done(); for val := range ch { out <- val } }(ch)`. -/
inductive Relay (T : Type) where
  /-- blocked in `range ch`, waiting for the next value or the close of `ch` -/
  | recving : Relay T
  /-- blocked in `out <- val` -/
  | sending (val : T) : Relay T
  /-- the loop has ended and the deferred `wg.Done()` has run -/
  | returned : Relay T
deriving DecidableEq, Repr

/-- One input channel with its producer and the relay that drains it. -/
structure Input (T : Type) where
  /-- items the producer has still to send on the channel -/
  pending : List T
  /-- the producer has closed the channel -/
  closed : Bool
  /-- the relay goroutine reading this channel -/
  relay : Relay T
deriving DecidableEq, Repr

/-- State of an execution of `MergeChannels`. -/
structure State (T : Type) where
  /-- the input channels, in argument order -/
  ins : List (Input T)
  /-- counter of `wg` -/
  wg : Nat
  /-- the goroutine `go func() { wg.Wait(); close(out) }()` has finished -/
  finalizerDone : Bool
  /-- the channel `out` has been closed -/
  outClosed : Bool
  /-- items the consumer has received on `out`, in arrival order -/
  received : List T
  /-- a run-time panic occurred (send on closed channel, close of closed
  channel, negative WaitGroup counter) -/
  panicked : Bool
deriving DecidableEq, Repr

/-- Scheduler choices. -/
inductive Act where
  /-- producer `i` hands its next item to relay `i` (`val := <-ch`) -/
  | recv (i : Nat)
  /-- producer `i` closes its channel after its last item -/
  | closeIn (i : Nat)
  /-- relay `i` sees its channel closed, leaves the loop and runs `wg.Done()` -/
  | eof (i : Nat)
  /-- relay `i` completes `out <- val` with the consumer -/
  | send (i : Nat)
  /-- the finalizer passes `wg.Wait()` and runs `close(out)` -/
  | closeOut
deriving DecidableEq, Repr

/-- State right after `MergeChannels(channels...)` has returned `out`: one relay
per channel has been started after its `wg.Add(1)`, and the finalizer waits.
`channels` lists, for each input channel, the items its producer sends before
closing it.  What a relay does before the loop of `MergeChannels` is over is
replayed from here by the schedule. -/
def MergeChannels {T : Type} (channels : List (List T)) : State T :=
  { ins := channels.map fun items => { pending := items, closed := false, relay := Relay.recving }
    wg := channels.length
    finalizerDone := false
    outClosed := false
    received := []
    panicked := false }

/-- One goroutine statement. -/
def step {T : Type} (s : State T) (a : Act) : Option (State T) :=
  if s.panicked then none else
  match a with
  | Act.recv i =>
    match s.ins[i]? with
    | some { pending := x :: xs, closed := false, relay := Relay.recving } =>
      some { s with ins := s.ins.set i { pending := xs, closed := false, relay := Relay.sending x } }
    | _ => none
  | Act.closeIn i =>
    match s.ins[i]? with
    | some { pending := [], closed := false, relay := r } =>
      some { s with ins := s.ins.set i { pending := [], closed := true, relay := r } }
    | _ => none
  | Act.eof i =>
    match s.ins[i]? with
    | some { pending := p, closed := true, relay := Relay.recving } =>
      if s.wg = 0 then some { s with panicked := true }
      else some { s with ins := s.ins.set i { pending := p, closed := true, relay := Relay.returned }
                         wg := s.wg - 1 }
    | _ => none
  | Act.send i =>
    match s.ins[i]? with
    | some { pending := p, closed := c, relay := Relay.sending x } =>
      if s.outClosed then some { s with panicked := true }
      else some { s with ins := s.ins.set i { pending := p, closed := c, relay := Relay.recving }
                         received := s.received ++ [x] }
    | _ => none
  | Act.closeOut =>
    if s.finalizerDone = false ∧ s.wg = 0 then
      if s.outClosed then some { s with panicked := true, finalizerDone := true }
      else some { s with outClosed := true, finalizerDone := true }
    else none

end FanIn

namespace FanIn

variable {T : Type}

/-- Items of one input that have not reached `out` yet. -/
def Input.inflight (inp : Input T) : List T :=
  match inp.relay with
  | Relay.sending x => x :: inp.pending
  | _ => inp.pending

/-- What one relay contributes to the WaitGroup counter. -/
def Input.live (inp : Input T) : Nat :=
  match inp.relay with
  | Relay.returned => 0
  | _ => 1

/-- Facts tying the producer side of an input to its relay. -/
def Input.ok (inp : Input T) : Prop :=
  (inp.closed = true → inp.pending = []) ∧ (inp.relay = Relay.returned → inp.closed = true)

/-- The invariant of `MergeChannels`. -/
structure Inv (channels : List (List T)) (s : State T) : Prop where
  noPanic : s.panicked = false
  wg_eq : s.wg = (s.ins.map Input.live).sum
  fin_eq : s.finalizerDone = s.outClosed
  closed_wg : s.outClosed = true → s.wg = 0
  locals : ∀ inp ∈ s.ins, inp.ok
  conserve : (s.received : Multiset T) + (s.ins.map fun inp => Multiset.ofList inp.inflight).sum
    = (channels.map Multiset.ofList).sum

/-- Number of goroutine statements the input still has to go through. -/
def Input.todo (inp : Input T) : Nat :=
  2 * inp.pending.length + (match inp.relay with | Relay.sending _ => 1 | _ => 0)
    + (if inp.closed then 0 else 1) + inp.live

/-- Number of steps left before the execution is complete. -/
def State.todo (s : State T) : Nat :=
  (s.ins.map Input.todo).sum + (if s.finalizerDone then 0 else 1)

end FanIn

/-! ## Goroutines in series: pipeline/main.go and fan_in_fan_out_pipeline/main.go -/

/-- Record `type File struct { Name string; Data string }` of both pipeline programs. -/
structure File where
  Name : String
  Data : String
deriving DecidableEq, Repr

/-- Context handed to every `Execute`, `fanOut` and `fanIn`; `true` once cancelled. -/
abbrev Ctx := Bool

namespace Chain

/-- Control point of a goroutine of the shape
`for v := range in { ...; out <- w }`, the shape of every stage body and of
every relay in the repository. -/
inductive Loop where
  /-- blocked in `range in` -/
  | recving : Loop
  /-- blocked in `out <- file` -/
  | sending (file : File) : Loop
  /-- the loop has ended and the deferred call (`close(out)` or `wg.Done()`) has run -/
  | returned : Loop
deriving DecidableEq, Repr

/-- One worker of `fanOut`: the goroutine started by `step.Execute(ctx, inFile)`
and the worker goroutine that ranges over the channel `Execute` returned. -/
structure Worker where
  /-- the goroutine inside `step.Execute`, reading the input of the `fanOut` -/
  stage : Loop
  /-- the worker goroutine, forwarding to `out` what `Execute` returns -/
  relay : Loop
deriving DecidableEq, Repr

/-- What sits between two consecutive channels of a pipeline. -/
inductive Node where
  /-- the goroutine of one `Execute` call, with the per-item transform of its body -/
  | stage (f : File → File) (t : Loop) : Node
  /-- one `fanOut` call: its workers, the counter of `wg`, whether the finalizer
  `go func() { wg.Wait(); close(out) }()` has finished, whether `out` is closed -/
  | fanOut (f : File → File) (workers : List Worker) (wg : Nat)
      (finalizerDone outClosed : Bool) : Node

/-- Outcome of a statement: not enabled, run-time panic, or done. -/
inductive Res (α : Type) where
  | blocked : Res α
  | panic : Res α
  | ok (a : α) : Res α

/-- Statements inside a `fanOut` that touch no outer channel. -/
inductive Inner where
  /-- stage goroutine `k` hands its file to worker `k` over the channel `Execute` returned -/
  | sub (k : Nat)
  /-- worker `k` sees that channel closed, leaves its loop and runs `wg.Done()` -/
  | subClosed (k : Nat)
  /-- the finalizer passes `wg.Wait()` and runs `close(out)` -/
  | closeOut
deriving DecidableEq, Repr

namespace Node

/-- The output channel of the node has been closed. -/
def outClosed : Node → Bool
  | stage _ Loop.returned => true
  | stage _ _ => false
  | fanOut _ _ _ _ oc => oc

/-- Goroutine `k` reading the node's input receives `x` and applies the stage body. -/
def accept : Node → Nat → File → Option Node
  | stage f Loop.recving, 0, x => some (stage f (Loop.sending (f x)))
  | stage _ _, _, _ => none
  | fanOut f ws wg fd oc, k, x =>
    match ws[k]? with
    | some { stage := Loop.recving, relay := r } =>
      some (fanOut f (ws.set k { stage := Loop.sending (f x), relay := r }) wg fd oc)
    | _ => none

/-- Goroutine `k` reading the node's input finds it closed: it leaves its loop
and its deferred `close(out)` runs. -/
def inputClosed : Node → Nat → Option Node
  | stage f Loop.recving, 0 => some (stage f Loop.returned)
  | stage _ _, _ => none
  | fanOut f ws wg fd oc, k =>
    match ws[k]? with
    | some { stage := Loop.recving, relay := r } =>
      some (fanOut f (ws.set k { stage := Loop.returned, relay := r }) wg fd oc)
    | _ => none

/-- Goroutine `i` writing the node's output completes its send. -/
def offer : Node → Nat → Res (File × Node)
  | stage f (Loop.sending y), 0 => Res.ok (y, stage f Loop.recving)
  | stage _ _, _ => Res.blocked
  | fanOut f ws wg fd oc, i =>
    match ws[i]? with
    | some { stage := t, relay := Loop.sending y } =>
      if oc then Res.panic
      else Res.ok (y, fanOut f (ws.set i { stage := t, relay := Loop.recving }) wg fd oc)
    | _ => Res.blocked

/-- A statement inside the node. -/
def inner : Node → Inner → Res Node
  | stage _ _, _ => Res.blocked
  | fanOut f ws wg fd oc, Inner.sub k =>
    match ws[k]? with
    | some { stage := Loop.sending y, relay := Loop.recving } =>
      Res.ok (fanOut f (ws.set k { stage := Loop.recving, relay := Loop.sending y }) wg fd oc)
    | _ => Res.blocked
  | fanOut f ws wg fd oc, Inner.subClosed k =>
    match ws[k]? with
    | some { stage := Loop.returned, relay := Loop.recving } =>
      if wg = 0 then Res.panic
      else Res.ok (fanOut f (ws.set k { stage := Loop.returned, relay := Loop.returned })
        (wg - 1) fd oc)
    | _ => Res.blocked
  | fanOut f ws wg fd oc, Inner.closeOut =>
    if fd = false ∧ wg = 0 then
      if oc then Res.panic else Res.ok (fanOut f ws wg true true)
    else Res.blocked

end Node

/-- State of a running pipeline: the generator goroutine feeding the first
channel, the nodes in order, and the consumer ranging over the last channel. -/
structure State where
  /-- files the generator has still to send -/
  pending : List File
  /-- the generator has closed its channel -/
  srcClosed : Bool
  /-- the nodes, first stage first -/
  nodes : List Node
  /-- files the consumer has received, in arrival order -/
  received : List File
  /-- a run-time panic occurred -/
  panicked : Bool

/-- Scheduler choices.  Channel `j` is the input of node `j`; channel `0` is
written by the generator and the channel after the last node is read by the
consumer. -/
inductive Act where
  /-- the generator closes its channel after its last file -/
  | closeSrc
  /-- on channel `j`, writer `i` hands its file to reader `k` -/
  | move (j i k : Nat)
  /-- reader `k` of node `j` finds channel `j` closed -/
  | eof (j k : Nat)
  /-- a statement inside node `j` -/
  | inner (j : Nat) (a : Inner)
deriving DecidableEq, Repr

/-- Channel `j` has been closed by its writer side. -/
def upClosed (s : State) : Nat → Bool
  | 0 => s.srcClosed
  | j + 1 =>
    match s.nodes[j]? with
    | some n => n.outClosed
    | none => false

/-- The writer side of channel `j` completes a send. -/
def take (s : State) : Nat → Nat → Res (File × State)
  | 0, _ =>
    match s.pending with
    | x :: xs => Res.ok (x, { s with pending := xs })
    | [] => Res.blocked
  | j + 1, i =>
    match s.nodes[j]? with
    | some n =>
      match n.offer i with
      | Res.ok (y, n') => Res.ok (y, { s with nodes := s.nodes.set j n' })
      | Res.panic => Res.panic
      | Res.blocked => Res.blocked
    | none => Res.blocked

/-- The reader side of channel `j` completes a receive of `y`. -/
def give (s : State) (j k : Nat) (y : File) : Option State :=
  if j = s.nodes.length then some { s with received := s.received ++ [y] }
  else
    match s.nodes[j]? with
    | some n =>
      match n.accept k y with
      | some n' => some { s with nodes := s.nodes.set j n' }
      | none => none
    | none => none

/-- One goroutine statement. -/
def step (s : State) (a : Act) : Option State :=
  if s.panicked then none else
  match a with
  | Act.closeSrc =>
    match s.pending, s.srcClosed with
    | [], false => some { s with srcClosed := true }
    | _, _ => none
  | Act.move j i k =>
    match take s j i with
    | Res.ok (y, s1) => give s1 j k y
    | Res.panic => some { s with panicked := true }
    | Res.blocked => none
  | Act.eof j k =>
    if upClosed s j then
      match s.nodes[j]? with
      | some n =>
        match n.inputClosed k with
        | some n' => some { s with nodes := s.nodes.set j n' }
        | none => none
      | none => none
    else none
  | Act.inner j a =>
    match s.nodes[j]? with
    | some n =>
      match n.inner a with
      | Res.ok n' => some { s with nodes := s.nodes.set j n' }
      | Res.panic => some { s with panicked := true }
      | Res.blocked => none
    | none => none

/-- The channel the consumer ranges over has been closed. -/
def State.done (s : State) : Bool := upClosed s s.nodes.length

/-- A pipeline at the moment `Execute` has returned: the generator holds
`files`, every goroutine of every node has been started. -/
def start (files : List File) (nodes : List Node) : State :=
  { pending := files, srcClosed := false, nodes := nodes, received := [], panicked := false }

end Chain

/-! ### pipeline/main.go -/

namespace SeqPipeline

/-- A `Stage` whose `Execute` is the goroutine
`defer close(out); for file := range inFile { file = transform(file); out <- file }`. -/
structure Stage where
  transform : File → File

/-- The type `Pipeline []Stage`. -/
abbrev Pipeline := List Stage

/-- The call `NewPipeline()`: the empty pipeline. -/
def NewPipeline : Pipeline := []

/-- The call `p.AddStage(stage)`: `*p = append(*p, stage)`. -/
def AddStage (p : Pipeline) (stage : Stage) : Pipeline := p ++ [stage]

/-- The call `stage.Execute(ctx, inFile)`: one goroutine, started in its loop. -/
def Stage.Execute (stage : Stage) (_ctx : Ctx) : Chain.Node :=
  Chain.Node.stage stage.transform Chain.Loop.recving

/-- The loop `for _, stage := range *p { nextChan = stage.Execute(ctx, nextChan) }`,
with `inFile` fed by `fileChanGenerator(files)`. -/
def Execute (p : Pipeline) (ctx : Ctx) (files : List File) : Chain.State :=
  Chain.start files (p.map fun stage => stage.Execute ctx)

/-- The stages of `main`; the body of each is `file.Data += " -> StageI"`
(the `time.Sleep` of `Stage3` moves no data). -/
def Stage1 : Stage := { transform := fun file => { file with Data := file.Data ++ " -> Stage1" } }
def Stage2 : Stage := { transform := fun file => { file with Data := file.Data ++ " -> Stage2" } }
def Stage3 : Stage := { transform := fun file => { file with Data := file.Data ++ " -> Stage3" } }
def Stage4 : Stage := { transform := fun file => { file with Data := file.Data ++ " -> Stage4" } }

end SeqPipeline

/-! ### fan_in_fan_out_pipeline/main.go -/

namespace FanOutPipeline

/-- A `Step` whose `Execute` is the goroutine
`defer close(out); for file := range inFile { file = transform(file); out <- file }`. -/
structure Step where
  transform : File → File

/-- The type `Pipeline []Step`. -/
abbrev Pipeline := List Step

/-- The call `NewPipeline()`: the empty pipeline. -/
def NewPipeline : Pipeline := []

/-- The call `p.AddStep(step)`: `*p = append(*p, step)`. -/
def AddStep (p : Pipeline) (step : Step) : Pipeline := p ++ [step]

/-- The call `fanOut(ctx, step, inFile, workerCount)`: the loop
`for i := 0; i < workerCount; i++` starts one worker per iteration after
`wg.Add(1)`, each worker calls `step.Execute(ctx, inFile)`; then the finalizer
is started.  `ctx` is not consulted. -/
def fanOut (_ctx : Ctx) (step : Step) (workerCount : Int) : Chain.Node :=
  Chain.Node.fanOut step.transform
    (List.replicate workerCount.toNat { stage := Chain.Loop.recving, relay := Chain.Loop.recving })
    workerCount.toNat false false

/-- The loop `for _, step := range *p { nextChan = fanOut(ctx, step, nextChan, runtime.NumCPU()) }`,
with `inFile` fed by a generator holding `files`. -/
def Execute (p : Pipeline) (ctx : Ctx) (numCPU : Int) (files : List File) : Chain.State :=
  Chain.start files (p.map fun step => fanOut ctx step numCPU)

/-- The steps of `main`; the body of each is
`file.Data += fmt.Sprintf("-> StepI[%s]", file.Name)`. -/
def Step1 : Step :=
  { transform := fun file => { file with Data := file.Data ++ ("-> Step1[" ++ file.Name ++ "]") } }
def Step2 : Step :=
  { transform := fun file => { file with Data := file.Data ++ ("-> Step2[" ++ file.Name ++ "]") } }
def Step3 : Step :=
  { transform := fun file => { file with Data := file.Data ++ ("-> Step3[" ++ file.Name ++ "]") } }
def Step4 : Step :=
  { transform := fun file => { file with Data := file.Data ++ ("-> Step4[" ++ file.Name ++ "]") } }

end FanOutPipeline

/-! ### Bookkeeping for the pipeline proofs -/

namespace Chain

/-- The file a goroutine holds while blocked in its send. -/
def Loop.held : Loop → Multiset File
  | Loop.sending y => {y}
  | _ => 0

/-- One while the goroutine has not returned, zero afterwards. -/
def Loop.live : Loop → Nat
  | Loop.returned => 0
  | _ => 1

/-- Files inside a worker of `fanOut`. -/
def Worker.held (w : Worker) : Multiset File := w.stage.held + w.relay.held

/-- A worker whose relay has returned has a returned stage goroutine. -/
def Worker.ok (w : Worker) : Prop := w.relay = Loop.returned → w.stage = Loop.returned

/-- The per-item transform of the node's stage. -/
def Node.transform : Node → File → File
  | Node.stage f _ => f
  | Node.fanOut f _ _ _ _ => f

/-- Files inside the node: received and transformed, not yet sent on. -/
def Node.held : Node → Multiset File
  | Node.stage _ t => t.held
  | Node.fanOut _ ws _ _ _ => (ws.map Worker.held).sum

/-- At least one goroutine reads the node's input. -/
def Node.hasReader : Node → Prop
  | Node.stage _ _ => True
  | Node.fanOut _ ws _ _ _ => ws ≠ []

/-- Some goroutine reading the node's input has seen it closed. -/
def Node.someReturned : Node → Prop
  | Node.stage _ t => t = Loop.returned
  | Node.fanOut _ ws _ _ _ => ∃ w ∈ ws, w.stage = Loop.returned

/-- Every goroutine reading the node's input has seen it closed. -/
def Node.allReturned : Node → Prop
  | Node.stage _ t => t = Loop.returned
  | Node.fanOut _ ws _ _ _ => ∀ w ∈ ws, w.stage = Loop.returned

/-- Consistency of the WaitGroup, the finalizer and the workers of a node. -/
def Node.ok : Node → Prop
  | Node.stage _ _ => True
  | Node.fanOut _ ws wg fd oc =>
    wg = (ws.map fun w => w.relay.live).sum ∧ fd = oc ∧ (oc = true → wg = 0) ∧ ∀ w ∈ ws, w.ok

/-- What the stages in `fs` make of a file, first stage first. -/
def comp : List (File → File) → File → File
  | [], x => x
  | f :: fs, x => comp fs (f x)

/-- Files inside the nodes, each taken through the stages it has still to visit. -/
def inside : List Node → Multiset File
  | [] => 0
  | n :: rest => n.held.map (comp (rest.map Node.transform)) + inside rest

/-- Everything the consumer has or will have: received files, files inside the
nodes and files still with the generator, taken through the remaining stages. -/
def State.total (s : State) : Multiset File :=
  Multiset.ofList s.received + inside s.nodes
    + (Multiset.ofList s.pending).map (comp (s.nodes.map Node.transform))

/-- The invariant of a running pipeline, apart from conservation. -/
structure Inv (s : State) : Prop where
  noPanic : s.panicked = false
  srcDrained : s.srcClosed = true → s.pending = []
  nodeOk : ∀ (j : Nat) (n : Node), s.nodes[j]? = some n →
    n.ok ∧ n.hasReader ∧ (n.someReturned → upClosed s j = true)

/-- One node turning into another by a statement of one of its goroutines. -/
structure Evolves (n n' : Node) : Prop where
  transform_eq : n'.transform = n.transform
  ok : n.ok → n'.ok
  reader : n.hasReader → n'.hasReader
  closed : n.outClosed = true → n'.outClosed = true

end Chain

namespace Chain

/-- One while the goroutine is blocked in its send, zero otherwise. -/
def Loop.busy : Loop → Nat
  | Loop.sending _ => 1
  | _ => 0

/-- Statements a file goes through inside the node besides its receive and its
send: the hand-over from the stage goroutine to the worker in a `fanOut`. -/
def Node.extra : Node → Nat
  | Node.stage _ _ => 0
  | Node.fanOut _ _ _ _ _ => 1

/-- Number of statements a file on the input channel of the nodes with these
`extra` values has ahead of it, up to and including its receive by the consumer. -/
def pot : List Nat → Nat
  | [] => 1
  | e :: es => 1 + e + pot es

/-- Statements the goroutines of a worker have ahead of them, `p` being what a
file has ahead of it once on the node's output channel. -/
def Worker.work (p : Nat) (w : Worker) : Nat :=
  w.stage.busy * (1 + p) + w.relay.busy * p + w.stage.live + w.relay.live

/-- Statements the goroutines of a node have ahead of them. -/
def Node.work (p : Nat) : Node → Nat
  | Node.stage _ t => t.busy * p + t.live
  | Node.fanOut _ ws _ fd _ => (ws.map (Worker.work p)).sum + (if fd then 0 else 1)

/-- Statements the goroutines of the nodes have ahead of them. -/
def work : List Node → Nat
  | [] => 0
  | n :: rest => n.work (pot (rest.map Node.extra)) + work rest

/-- Number of steps left before the consumer sees its channel closed. -/
def State.todo (s : State) : Nat :=
  s.pending.length * pot (s.nodes.map Node.extra) + (if s.srcClosed then 0 else 1) + work s.nodes

end Chain

/-! ## tee/main.go : `Tee` -/

namespace TeePkg

/-- Record `type Order struct { ID int; Amount float64 }`.  Every amount `main`
builds is `float64(rand.Intn(100) + 1)`, a whole number, kept here as such. -/
structure Order where
  ID : Int
  Amount : Nat
deriving DecidableEq, Repr

/-- A delivery goroutine
`go func(data T) { defer waitSinks.Done(); for _, sink := range sinks { sink <- data } }(data)`. -/
structure Delivery (T : Type) where
  /-- the argument of the goroutine -/
  data : T
  /-- index in `sinks` of the sink its next send goes to -/
  next : Nat
  /-- the loop has ended and the deferred `waitSinks.Done()` has run -/
  returned : Bool
deriving DecidableEq, Repr

/-- Control point of `Tee` itself. -/
inductive Phase where
  /-- in `for data := range source` -/
  | reading : Phase
  /-- in `waitSinks.Wait()` -/
  | waiting : Phase
  /-- in the last loop, about to run `close(sinks[k])` -/
  | closing (k : Nat) : Phase
  /-- after the return of `Tee` -/
  | returned : Phase
deriving DecidableEq, Repr

/-- State of an execution of `Tee(source, sinks...)`.  Channels are named by
numbers, so that one channel can be passed more than once in `sinks`. -/
structure State (T : Type) where
  /-- items the producer has still to send on `source` -/
  pending : List T
  /-- the producer has closed `source` -/
  srcClosed : Bool
  phase : Phase
  /-- the delivery goroutines started so far, in start order -/
  deliveries : List (Delivery T)
  /-- counter of `waitSinks` -/
  wg : Nat
  /-- every completed send `sink <- data`, in order: the channel and the item -/
  log : List (Nat × T)
  /-- the channels closed so far, in order -/
  closed : List Nat
  /-- a run-time panic occurred -/
  panicked : Bool
deriving DecidableEq, Repr

/-- Scheduler choices. -/
inductive Act where
  /-- the producer hands its next item to `Tee`, which runs `waitSinks.Add(1)`
  and starts a delivery goroutine -/
  | read
  /-- the producer closes `source` after its last item -/
  | closeSrc
  /-- the loop of `Tee` sees `source` closed and ends -/
  | eof
  /-- delivery `g` completes its next `sink <- data` with the consumer of that sink -/
  | deliver (g : Nat)
  /-- delivery `g` leaves its loop and runs `waitSinks.Done()` -/
  | done (g : Nat)
  /-- the call `waitSinks.Wait()` of `Tee` returns -/
  | wait
  /-- the last loop of `Tee` runs its next `close(sink)`, or `Tee` returns when none is left -/
  | close
deriving DecidableEq, Repr

/-- State when `Tee` enters its loop; the producer holds `items`. -/
def Tee {T : Type} (items : List T) : State T :=
  { pending := items, srcClosed := false, phase := Phase.reading, deliveries := [], wg := 0,
    log := [], closed := [], panicked := false }

/-- One goroutine statement. -/
def step {T : Type} (sinks : List Nat) (s : State T) (a : Act) : Option (State T) :=
  if s.panicked then none else
  match a with
  | Act.read =>
    match s.phase, s.pending with
    | Phase.reading, x :: xs =>
      some { s with pending := xs, wg := s.wg + 1
                    deliveries := s.deliveries ++ [{ data := x, next := 0, returned := false }] }
    | _, _ => none
  | Act.closeSrc =>
    match s.pending, s.srcClosed with
    | [], false => some { s with srcClosed := true }
    | _, _ => none
  | Act.eof =>
    match s.phase, s.srcClosed with
    | Phase.reading, true => some { s with phase := Phase.waiting }
    | _, _ => none
  | Act.deliver g =>
    match s.deliveries[g]? with
    | some { data := x, next := k, returned := false } =>
      match sinks[k]? with
      | some c =>
        if c ∈ s.closed then some { s with panicked := true }
        else some { s with log := s.log ++ [(c, x)]
                           deliveries := s.deliveries.set g { data := x, next := k + 1, returned := false } }
      | none => none
    | _ => none
  | Act.done g =>
    match s.deliveries[g]? with
    | some { data := x, next := k, returned := false } =>
      match sinks[k]? with
      | some _ => none
      | none =>
        if s.wg = 0 then some { s with panicked := true }
        else some { s with wg := s.wg - 1
                           deliveries := s.deliveries.set g { data := x, next := k, returned := true } }
    | _ => none
  | Act.wait =>
    match s.phase with
    | Phase.waiting => if s.wg = 0 then some { s with phase := Phase.closing 0 } else none
    | _ => none
  | Act.close =>
    match s.phase with
    | Phase.closing k =>
      match sinks[k]? with
      | some c =>
        if c ∈ s.closed then some { s with panicked := true }
        else some { s with closed := s.closed ++ [c], phase := Phase.closing (k + 1) }
      | none => some { s with phase := Phase.returned }
    | _ => none

/-- The items the consumer of channel `c` has received, in arrival order. -/
def State.receivedOn {T : Type} (s : State T) (c : Nat) : List T :=
  (s.log.filter fun e => e.1 == c).map fun e => e.2

/-- The source of `main`: orders with the IDs 1 to 5, `amount i` being the
amount drawn for the order with ID `i`. -/
def orders (amount : Nat → Nat) : List Order :=
  (List.range 5).map fun (i : Nat) => { ID := (i : Int) + 1, Amount := amount (i + 1) }

end TeePkg

namespace TeePkg

/-- What one delivery contributes to the counter of `waitSinks`. -/
def Delivery.live {T : Type} (g : Delivery T) : Nat := if g.returned then 0 else 1

/-- The copies of its item a delivery has sent on channel `c` so far: one for
each position before `next` at which `c` stands in `sinks`. -/
def Delivery.sent {T : Type} (sinks : List Nat) (c : Nat) (g : Delivery T) : Multiset T :=
  Multiset.replicate ((sinks.take g.next).count c) g.data

/-- What the control point of `Tee` says about the source, the counter and the
closed channels. -/
def PhaseOk {T : Type} (sinks : List Nat) (s : State T) : Prop :=
  match s.phase with
  | Phase.reading => s.closed = []
  | Phase.waiting => s.closed = [] ∧ s.srcClosed = true
  | Phase.closing k => s.closed = sinks.take k ∧ k ≤ sinks.length ∧ s.srcClosed = true ∧ s.wg = 0
  | Phase.returned => s.closed = sinks ∧ s.srcClosed = true ∧ s.wg = 0

/-- The invariant of `Tee`. -/
structure Inv {T : Type} (sinks : List Nat) (items : List T) (s : State T) : Prop where
  data : (s.deliveries.map fun g => g.data) ++ s.pending = items
  srcDrained : s.srcClosed = true → s.pending = []
  wg_eq : s.wg = (s.deliveries.map Delivery.live).sum
  bound : ∀ g ∈ s.deliveries, g.next ≤ sinks.length ∧ (g.returned = true → g.next = sinks.length)
  logs : ∀ c, Multiset.ofList (s.receivedOn c) = (s.deliveries.map (Delivery.sent sinks c)).sum
  phase : PhaseOk sinks s
  nodup : s.closed.Nodup

/-- Number of steps left before `Tee` returns. -/
def State.todo {T : Type} (sinks : List Nat) (s : State T) : Nat :=
  s.pending.length * (sinks.length + 2)
    + (s.deliveries.map fun g => (sinks.length - g.next) + g.live).sum
    + (if s.srcClosed then 0 else 1)
    + (match s.phase with
       | Phase.reading => sinks.length + 3
       | Phase.waiting => sinks.length + 2
       | Phase.closing k => sinks.length - k + 1
       | Phase.returned => 0)

end TeePkg

/-! ## url_fetcher_fan_out/main.go : `generateURLsChan`, `fetchURLs` -/

namespace UrlFetcher

/-- The error `fmt.Errorf("worker %d: error fetching %s, err: %w", workerID, url, err)`. -/
structure FetchError (Err : Type) where
  workerID : Int
  url : String
  cause : Err
deriving DecidableEq, Repr

/-- Record `type Result struct { workerID int; url string; resp *http.Response; err error }`;
`none` stands for `nil`. -/
structure Result (Resp Err : Type) where
  workerID : Int
  url : String
  resp : Option Resp
  err : Option (FetchError Err)
deriving DecidableEq, Repr

/-- The `Result` the body of the `select` case builds for `url`, `get` standing
for `http.Get`. -/
def fetchResult {Resp Err : Type} (get : String → Except Err Resp) (workerID : Int)
    (url : String) : Result Resp Err :=
  match get url with
  | Except.error e =>
    { workerID := workerID, url := "", resp := none,
      err := some { workerID := workerID, url := url, cause := e } }
  | Except.ok r => { workerID := workerID, url := url, resp := some r, err := none }

/-- Control point of the goroutine of `fetchURLs`. -/
inductive Worker (Resp Err : Type) where
  /-- blocked in `select { case <-ctx.Done(): ... case url, ok := <-urlsChan: ... }` -/
  | selecting : Worker Resp Err
  /-- blocked in `out <- Result{...}` -/
  | sending (r : Result Resp Err) : Worker Resp Err
  /-- returned; the deferred `close(out)` has run -/
  | returned : Worker Resp Err
deriving DecidableEq, Repr

/-- State of `fetchURLs(ctx, generateURLsChan(ctx, urls), workerID)` with a
consumer ranging over the result channel. -/
structure State (Resp Err : Type) where
  /-- URLs the generator has still to send -/
  pending : List String
  /-- the generator has returned and its deferred `close(urlsChan)` has run -/
  urlsClosed : Bool
  worker : Worker Resp Err
  /-- the context `ctx` has been cancelled -/
  cancelled : Bool
  /-- results the consumer has received, in arrival order -/
  received : List (Result Resp Err)
  /-- the consumer is still ranging over `out` -/
  reading : Bool
deriving DecidableEq, Repr

/-- Scheduler choices. -/
inductive Act where
  /-- the generator's `case urlsChan <- url` meets the worker's
  `case url, ok := <-urlsChan`; the worker runs `http.Get(url)` -/
  | recv
  /-- the generator leaves its loop after the last URL and closes `urlsChan` -/
  | closeUrls
  /-- the generator takes `case <-ctx.Done()` and returns, closing `urlsChan` -/
  | genCancel
  /-- the worker receives from the closed `urlsChan` (`!ok`) and returns -/
  | eof
  /-- the worker takes `case <-ctx.Done()` and returns -/
  | ctxDone
  /-- the worker completes `out <- Result{...}` with the consumer -/
  | send
  /-- the caller cancels `ctx` -/
  | cancel
  /-- the consumer stops reading `out` -/
  | stopReading
deriving DecidableEq, Repr

/-- State when `fetchURLs` has returned `out`. -/
def fetchURLs {Resp Err : Type} (urls : List String) : State Resp Err :=
  { pending := urls, urlsClosed := false, worker := Worker.selecting, cancelled := false,
    received := [], reading := true }

/-- One goroutine statement. -/
def step {Resp Err : Type} (get : String → Except Err Resp) (workerID : Int)
    (s : State Resp Err) (a : Act) : Option (State Resp Err) :=
  match a with
  | Act.recv =>
    match s.worker, s.pending, s.urlsClosed with
    | Worker.selecting, u :: us, false =>
      some { s with pending := us, worker := Worker.sending (fetchResult get workerID u) }
    | _, _, _ => none
  | Act.closeUrls =>
    match s.pending, s.urlsClosed with
    | [], false => some { s with urlsClosed := true }
    | _, _ => none
  | Act.genCancel =>
    match s.pending, s.urlsClosed, s.cancelled with
    | _ :: _, false, true => some { s with pending := [], urlsClosed := true }
    | _, _, _ => none
  | Act.eof =>
    match s.worker, s.urlsClosed with
    | Worker.selecting, true => some { s with worker := Worker.returned }
    | _, _ => none
  | Act.ctxDone =>
    match s.worker, s.cancelled with
    | Worker.selecting, true => some { s with worker := Worker.returned }
    | _, _ => none
  | Act.send =>
    match s.worker, s.reading with
    | Worker.sending r, true =>
      some { s with worker := Worker.selecting, received := s.received ++ [r] }
    | _, _ => none
  | Act.cancel =>
    match s.cancelled with
    | false => some { s with cancelled := true }
    | true => none
  | Act.stopReading =>
    match s.reading with
    | true => some { s with reading := false }
    | false => none

/-- The result the worker holds while blocked in its send. -/
def Worker.held {Resp Err : Type} : Worker Resp Err → List (Result Resp Err)
  | Worker.sending r => [r]
  | _ => []

/-- The invariant of `fetchURLs` as long as `ctx` has not been cancelled. -/
structure Inv {Resp Err : Type} (get : String → Except Err Resp) (workerID : Int)
    (urls : List String) (s : State Resp Err) : Prop where
  order : s.received ++ s.worker.held ++ s.pending.map (fetchResult get workerID)
    = urls.map (fetchResult get workerID)
  drained : s.urlsClosed = true → s.pending = []
  ret : s.worker = Worker.returned → s.urlsClosed = true

/-- Number of steps left before the worker returns. -/
def State.todo {Resp Err : Type} (s : State Resp Err) : Nat :=
  2 * s.pending.length + (if s.urlsClosed then 0 else 1)
    + (match s.worker with
       | Worker.selecting => 1
       | Worker.sending _ => 2
       | Worker.returned => 0)

end UrlFetcher

/-! ## The programs' own inputs -/

namespace FanIn

/-- The items `generateTickets(airline)` sends before it closes its channel:
ten tickets, `draw i` being the value of the `i`-th `rand.Intn(1000)`. -/
def generateTickets (airline : String) (draw : Nat → Nat) : List String :=
  (List.range 10).map fun i => airline ++ " Ticket #" ++ toString (draw i % 1000 + 1)

/-- The call of `MergeChannels` in `main`. -/
def main (draw1 draw2 draw3 : Nat → Nat) : State String :=
  MergeChannels [generateTickets "Ryanair" draw1, generateTickets "Lufthansa" draw2,
    generateTickets "EasyJet" draw3]

end FanIn

namespace FanOutPipeline

/-- The call `fanIn(ctx, channels...)`: the body of `MergeChannels` at the type
`File`; `ctx` is not consulted. -/
def fanIn (_ctx : Ctx) (channels : List (List File)) : FanIn.State File :=
  FanIn.MergeChannels channels

end FanOutPipeline

namespace TeePkg

/-- The schedule of the counterexample to C4: `Tee` reads the orders 1 and 2,
the delivery of order 2 reaches every sink before that of order 1, then the
orders 3, 4 and 5 are read and delivered in turn, and `Tee` closes the sinks. -/
def overtaking : List Act :=
  [Act.read, Act.read, Act.deliver 1, Act.deliver 1, Act.deliver 1, Act.deliver 0,
    Act.deliver 0, Act.deliver 0, Act.read, Act.deliver 2, Act.deliver 2, Act.deliver 2,
    Act.read, Act.deliver 3, Act.deliver 3, Act.deliver 3, Act.read, Act.deliver 4,
    Act.deliver 4, Act.deliver 4, Act.closeSrc, Act.eof, Act.done 0, Act.done 1, Act.done 2,
    Act.done 3, Act.done 4, Act.wait, Act.close, Act.close, Act.close, Act.close]

end TeePkg

namespace UrlFetcher

/-- A stand-in for `http.Get` that fails on the URL `"bad"` and answers every
other URL with the length of the URL. -/
def sampleGet (url : String) : Except String Nat :=
  if url = "bad" then Except.error "no such host" else Except.ok url.length

end UrlFetcher

/-! ## Generic facts about schedules -/

theorem run_append {σ α : Type} (step : σ → α → Option σ) (s : σ) (as bs : List α) :
    run step s (as ++ bs) = (run step s as).bind fun s' => run step s' bs := by
  induction as generalizing s with
  | nil => simp [run]
  | cons a as ih =>
    simp only [List.cons_append, run]
    cases step s a with
    | none => simp
    | some s' => simpa using ih s'

theorem run_invariant {σ α : Type} (step : σ → α → Option σ) (P : σ → Prop)
    (hstep : ∀ s a s', P s → step s a = some s' → P s')
    (s : σ) (acts : List α) (s' : σ) (h0 : P s) (h : run step s acts = some s') : P s' := by
  induction acts generalizing s with
  | nil => simp [run] at h; exact h ▸ h0
  | cons a as ih =>
    simp only [run] at h
    cases hs : step s a with
    | none => simp [hs] at h
    | some s1 =>
      rw [hs] at h
      exact ih s1 (hstep s a s1 h0 hs) h

/-- Replacing the entry at `i` moves a sum over the list by the difference of
the two entries. -/
theorem sum_map_set {β M : Type} [AddCommMonoid M] (f : β → M) (l : List β) (i : Nat)
    (old new : β) (h : l[i]? = some old) :
    ((l.set i new).map f).sum + f old = (l.map f).sum + f new := by
  induction l generalizing i with
  | nil => simp at h
  | cons b l ih =>
    cases i with
    | zero =>
      simp only [List.getElem?_cons_zero, Option.some.injEq] at h
      subst h
      simp only [List.set_cons_zero, List.map_cons, List.sum_cons]
      abel
    | succ i =>
      simp only [List.getElem?_cons_succ] at h
      simp only [List.set_cons_succ, List.map_cons, List.sum_cons]
      rw [add_assoc, ih i h, add_assoc]

theorem forall_mem_set {β : Type} (P : β → Prop) (l : List β) (i : Nat) (new : β)
    (hl : ∀ b ∈ l, P b) (hn : P new) : ∀ b ∈ l.set i new, P b := by
  intro b hb
  rcases List.mem_or_eq_of_mem_set hb with h | h
  · exact hl b h
  · exact h ▸ hn

theorem le_sum_map_of_mem {β : Type} (f : β → Nat) (l : List β) (b : β) (h : b ∈ l) :
    f b ≤ (l.map f).sum := by
  induction l with
  | nil => simp at h
  | cons c l ih =>
    simp only [List.map_cons, List.sum_cons]
    rcases List.mem_cons.1 h with h | h
    · subst h; omega
    · have := ih h; omega

theorem exists_live {β : Type} (f : β → Nat) (l : List β) (h : (l.map f).sum ≠ 0) :
    ∃ (i : Nat) (b : β), l[i]? = some b ∧ f b ≠ 0 := by
  induction l with
  | nil => simp at h
  | cons c l ih =>
    by_cases hc : f c = 0
    · simp only [List.map_cons, List.sum_cons, hc, zero_add] at h
      obtain ⟨i, b, hb, hf⟩ := ih h
      exact ⟨i + 1, b, by simpa using hb, hf⟩
    · exact ⟨0, c, by simp, hc⟩

theorem sum_eq_zero_of_forall {β M : Type} [AddMonoid M] (g : β → M) (l : List β)
    (h : ∀ b ∈ l, g b = 0) : (l.map g).sum = 0 := by
  induction l with
  | nil => rfl
  | cons c l ih =>
    simp only [List.map_cons, List.sum_cons]
    rw [h c (List.mem_cons_self _ _), ih fun b hb => h b (List.mem_cons_of_mem _ hb), add_zero]

namespace FanIn

variable {T : Type}

@[simp] theorem Input.inflight_sending (p : List T) (c : Bool) (x : T) :
    Input.inflight { pending := p, closed := c, relay := Relay.sending x } = x :: p := rfl

@[simp] theorem Input.inflight_recving (p : List T) (c : Bool) :
    Input.inflight { pending := p, closed := c, relay := (Relay.recving : Relay T) } = p := rfl

@[simp] theorem Input.inflight_returned (p : List T) (c : Bool) :
    Input.inflight { pending := p, closed := c, relay := (Relay.returned : Relay T) } = p := rfl

@[simp] theorem Input.live_of_sending (p : List T) (c : Bool) (x : T) :
    Input.live { pending := p, closed := c, relay := Relay.sending x } = 1 := rfl

@[simp] theorem Input.live_of_recving (p : List T) (c : Bool) :
    Input.live { pending := p, closed := c, relay := (Relay.recving : Relay T) } = 1 := rfl

@[simp] theorem Input.live_of_returned (p : List T) (c : Bool) :
    Input.live { pending := p, closed := c, relay := (Relay.returned : Relay T) } = 0 := rfl

theorem merge_inv_init (channels : List (List T)) : Inv channels (MergeChannels channels) := by
  refine ⟨rfl, ?_, rfl, by simp [MergeChannels], ?_, ?_⟩
  · simp only [MergeChannels, List.map_map]
    induction channels with
    | nil => rfl
    | cons c cs ih => simp [Input.live, ih, Nat.add_comm]
  · intro inp h
    simp only [MergeChannels, List.mem_map] at h
    obtain ⟨c, -, rfl⟩ := h
    simp [Input.ok]
  · simp only [MergeChannels, List.map_map]
    simp only [Multiset.coe_nil, zero_add]
    rfl

theorem merge_inv_step (channels : List (List T)) (s : State T) (a : Act) (s' : State T)
    (hi : Inv channels s) (h : step s a = some s') : Inv channels s' := by
  obtain ⟨hp, hwg, hfin, hcw, hloc, hcons⟩ := hi
  unfold step at h
  split at h
  · simp at h
  · split at h
    · -- recv
      split at h
      · rename_i i _ x xs heq
        simp only [Option.some.injEq] at h
        subst h
        have hm := List.getElem?_mem heq
        refine ⟨hp, ?_, hfin, hcw, ?_, ?_⟩
        · have := sum_map_set Input.live s.ins i _
            { pending := xs, closed := false, relay := Relay.sending x } heq
          simp only [Input.live_of_sending, Input.live_of_recving, Input.live_of_returned] at this ⊢
          omega
        · exact forall_mem_set _ _ _ _ hloc (by simp [Input.ok])
        · have := sum_map_set (fun inp : Input T => Multiset.ofList inp.inflight) s.ins i _
            { pending := xs, closed := false, relay := Relay.sending x } heq
          simp only [Input.inflight_sending, Input.inflight_recving, Input.inflight_returned] at this ⊢
          simp only [add_left_inj] at this
          rw [this]; exact hcons
      · simp at h
    · -- closeIn
      split at h
      · rename_i i _ r heq
        simp only [Option.some.injEq] at h
        subst h
        have hm := List.getElem?_mem heq
        refine ⟨hp, ?_, hfin, hcw, ?_, ?_⟩
        · have := sum_map_set Input.live s.ins i _
            { pending := [], closed := true, relay := r } heq
          have e : Input.live ({ pending := [], closed := true, relay := r } : Input T)
              = Input.live { pending := [], closed := false, relay := r } := by cases r <;> rfl
          rw [e, add_left_inj] at this
          simp only
          rw [this]; exact hwg
        · exact forall_mem_set _ _ _ _ hloc (by simp [Input.ok])
        · have := sum_map_set (fun inp : Input T => Multiset.ofList inp.inflight) s.ins i _
            { pending := [], closed := true, relay := r } heq
          have e : Input.inflight ({ pending := [], closed := true, relay := r } : Input T)
              = Input.inflight { pending := [], closed := false, relay := r } := by cases r <;> rfl
          simp only [e, add_left_inj] at this
          simp only
          rw [this]; exact hcons
      · simp at h
    · -- eof
      split at h
      · rename_i i _ p heq
        have hm := List.getElem?_mem heq
        have hl := sum_map_set Input.live s.ins i _
            { pending := p, closed := true, relay := Relay.returned } heq
        simp only [Input.live_of_sending, Input.live_of_recving, Input.live_of_returned] at hl
        split at h
        · omega
        · simp only [Option.some.injEq] at h
          subst h
          refine ⟨hp, ?_, hfin, ?_, ?_, ?_⟩
          · simp only; omega
          · intro hc; have := hcw hc; simp only; omega
          · exact forall_mem_set _ _ _ _ hloc (by simp [Input.ok]; exact (hloc _ hm).1 rfl)
          · have := sum_map_set (fun inp : Input T => Multiset.ofList inp.inflight) s.ins i _
              { pending := p, closed := true, relay := Relay.returned } heq
            simp only [Input.inflight_sending, Input.inflight_recving, Input.inflight_returned] at this ⊢
            simp only [add_left_inj] at this
            rw [this]; exact hcons
      · simp at h
    · -- send
      split at h
      · rename_i i _ p c x heq
        have hm := List.getElem?_mem heq
        have hl := sum_map_set Input.live s.ins i _
            { pending := p, closed := c, relay := Relay.recving } heq
        simp only [Input.live_of_sending, Input.live_of_recving, Input.live_of_returned] at hl
        split at h
        · rename_i hc
          have := hcw hc
          have := le_sum_map_of_mem Input.live _ _ hm
          simp only [Input.live_of_sending] at this
          omega
        · simp only [Option.some.injEq] at h
          subst h
          refine ⟨hp, ?_, hfin, hcw, ?_, ?_⟩
          · simp only; omega
          · refine forall_mem_set _ _ _ _ hloc ?_
            have := (hloc _ hm).1
            simpa [Input.ok] using this
          · have := sum_map_set (fun inp : Input T => Multiset.ofList inp.inflight) s.ins i _
              { pending := p, closed := c, relay := Relay.recving } heq
            simp only [Input.inflight_sending, Input.inflight_recving, Input.inflight_returned] at this ⊢
            rw [← Multiset.coe_add, ← hcons, add_assoc]
            congr 1
            rw [← Multiset.cons_coe, ← Multiset.singleton_add, ← add_assoc] at this
            rw [add_comm]
            exact add_right_cancel this
      · simp at h
    · -- closeOut
      split at h
      · rename_i hg
        split at h
        · rename_i hc
          rw [hg.1] at hfin
          simp [← hfin] at hc
        · simp only [Option.some.injEq] at h
          subst h
          exact ⟨hp, hwg, rfl, fun _ => hg.2, hloc, hcons⟩
      · simp at h


theorem merge_todo_step (channels : List (List T)) (s : State T) (a : Act) (s' : State T)
    (hi : Inv channels s) (h : step s a = some s') : s'.todo + 1 = s.todo := by
  have hi' := merge_inv_step channels s a s' hi h
  have hp' := hi'.noPanic
  unfold step at h
  split at h
  · simp at h
  · split at h
    · split at h
      · rename_i i _ x xs heq
        simp only [Option.some.injEq] at h
        subst h
        have := sum_map_set Input.todo s.ins i _
            { pending := xs, closed := false, relay := Relay.sending x } heq
        simp only [Input.todo, Input.live, List.length_cons] at this
        simp only [State.todo]
        simp only [Bool.false_eq_true, ↓reduceIte] at this
        omega
      · simp at h
    · split at h
      · rename_i i _ r heq
        simp only [Option.some.injEq] at h
        subst h
        have := sum_map_set Input.todo s.ins i _
            { pending := [], closed := true, relay := r } heq
        simp only [Input.todo, Input.live, List.length_cons] at this
        simp only [State.todo]
        simp only [Bool.false_eq_true, ↓reduceIte] at this
        omega
      · simp at h
    · split at h
      · rename_i i _ q heq
        split at h
        · simp only [Option.some.injEq] at h
          subst h
          simp at hp'
        · simp only [Option.some.injEq] at h
          subst h
          have := sum_map_set Input.todo s.ins i _
            { pending := q, closed := true, relay := Relay.returned } heq
          simp only [Input.todo, Input.live, List.length_cons] at this
          simp only [State.todo]
          omega
      · simp at h
    · split at h
      · rename_i i _ q c x heq
        split at h
        · simp only [Option.some.injEq] at h
          subst h
          simp at hp'
        · simp only [Option.some.injEq] at h
          subst h
          have := sum_map_set Input.todo s.ins i _
            { pending := q, closed := c, relay := Relay.recving } heq
          simp only [Input.todo, Input.live, List.length_cons] at this
          simp only [State.todo]
          omega
      · simp at h
    · split at h
      · rename_i hg
        split at h
        · simp only [Option.some.injEq] at h
          subst h
          simp at hp'
        · simp only [Option.some.injEq] at h
          subst h
          simp only [State.todo, hg.1]
          simp
      · simp at h

/-- No deadlock: as long as the finalizer has not closed `out`, some goroutine
can take a step. -/
theorem merge_progress (channels : List (List T)) (s : State T) (hi : Inv channels s)
    (hf : s.finalizerDone = false) : ∃ a s', step s a = some s' := by
  obtain ⟨hp, hwg, hfin, hcw, hloc, hcons⟩ := hi
  by_cases h0 : s.wg = 0
  · refine ⟨Act.closeOut, { s with outClosed := true, finalizerDone := true }, ?_⟩
    have hc : s.outClosed = false := by rw [← hfin]; exact hf
    simp [step, hp, hf, h0, hc]
  · rw [hwg] at h0
    obtain ⟨i, inp, hget, hlive⟩ := exists_live _ _ h0
    obtain ⟨q, c, r⟩ := inp
    have hok := hloc _ (List.getElem?_mem hget)
    have hc : s.outClosed = false := by rw [← hfin]; exact hf
    cases r with
    | returned => simp [Input.live] at hlive
    | sending x =>
      exact ⟨Act.send i, _, by simp only [step, hp, hget, hc]; rfl⟩
    | recving =>
      cases c with
      | true =>
        refine ⟨Act.eof i, { s with ins := s.ins.set i { pending := q, closed := true, relay := Relay.returned }
                                    wg := s.wg - 1 }, ?_⟩
        have : s.wg ≠ 0 := by rw [hwg]; exact h0
        simp [step, hp, hget, this]
      | false =>
        cases q with
        | nil => exact ⟨Act.closeIn i, _, by simp only [step, hp, hget]; rfl⟩
        | cons x xs => exact ⟨Act.recv i, _, by simp only [step, hp, hget]; rfl⟩

/-- Every state of an execution can be extended to a complete execution. -/
theorem merge_completes (channels : List (List T)) (n : Nat) (s : State T) (hi : Inv channels s)
    (hn : s.todo = n) : ∃ acts s', run step s acts = some s' ∧ s'.outClosed = true := by
  induction n generalizing s with
  | zero =>
    refine ⟨[], s, rfl, ?_⟩
    rw [← hi.fin_eq]
    simp only [State.todo] at hn
    by_contra hc
    simp only [Bool.not_eq_true] at hc
    simp [hc] at hn
  | succ n ih =>
    by_cases hf : s.finalizerDone = true
    · exact ⟨[], s, rfl, by rw [← hi.fin_eq]; exact hf⟩
    · simp only [Bool.not_eq_true] at hf
      obtain ⟨a, s1, hs⟩ := merge_progress channels s hi hf
      have ht := merge_todo_step channels s a s1 hi hs
      obtain ⟨acts, s', hr, hc⟩ := ih s1 (merge_inv_step channels s a s1 hi hs) (by omega)
      exact ⟨a :: acts, s', by simp [run, hs, hr], hc⟩

/-- With the WaitGroup at zero every relay has returned and nothing is in flight. -/
theorem all_returned (channels : List (List T)) (s : State T) (hi : Inv channels s)
    (h0 : s.wg = 0) : ∀ inp ∈ s.ins, inp.relay = Relay.returned ∧ inp.closed = true ∧ inp.pending = [] := by
  intro inp hm
  have h1 := le_sum_map_of_mem Input.live _ _ hm
  rw [← hi.wg_eq, h0] at h1
  have hr : inp.relay = Relay.returned := by
    cases hrel : inp.relay with
    | returned => rfl
    | recving => simp [Input.live, hrel] at h1
    | sending x => simp [Input.live, hrel] at h1
  have hok := hi.locals inp hm
  exact ⟨hr, hok.2 hr, hok.1 (hok.2 hr)⟩

theorem received_of_closed (channels : List (List T)) (s : State T) (hi : Inv channels s)
    (hc : s.outClosed = true) :
    Multiset.ofList s.received = (channels.map Multiset.ofList).sum := by
  have hall := all_returned channels s hi (hi.closed_wg hc)
  have := hi.conserve
  rw [sum_eq_zero_of_forall _ _ (fun inp hm => by
    obtain ⟨h1, -, h3⟩ := hall inp hm
    simp [Input.inflight, h1, h3]), add_zero] at this
  exact this

end FanIn


namespace Chain

@[simp] theorem Loop.held_sending (y : File) : (Loop.sending y).held = {y} := rfl
@[simp] theorem Loop.held_recving : Loop.recving.held = 0 := rfl
@[simp] theorem Loop.held_returned : Loop.returned.held = 0 := rfl
@[simp] theorem Loop.live_sending (y : File) : (Loop.sending y).live = 1 := rfl
@[simp] theorem Loop.live_recving : Loop.recving.live = 1 := rfl
@[simp] theorem Loop.live_returned : Loop.returned.live = 0 := rfl

theorem Evolves.refl_of_eq {n n' : Node} (h : n' = n) : Evolves n n' := by
  subst h; exact ⟨rfl, id, id, id⟩

/-- A receive by a reader of the node: the transformed file joins the node. -/
theorem accept_spec (n n' : Node) (k : Nat) (x : File) (h : n.accept k x = some n') :
    Evolves n n' ∧ n'.held = n.held + {n.transform x} ∧ (n'.someReturned → n.someReturned)
      ∧ n'.outClosed = n.outClosed := by
  cases n with
  | stage f t =>
    cases t <;> cases k <;> simp only [Node.accept, Option.some.injEq, reduceCtorEq] at h
    subst h
    exact ⟨⟨rfl, id, id, by simp [Node.outClosed]⟩, by simp [Node.held, Node.transform],
      by simp [Node.someReturned], rfl⟩
  | fanOut f ws wg fd oc =>
    simp only [Node.accept] at h
    split at h
    · rename_i r heq
      simp only [Option.some.injEq] at h
      subst h
      have hm := List.getElem?_mem heq
      refine ⟨⟨rfl, ?_, ?_, id⟩, ?_, ?_, rfl⟩
      · rintro ⟨h1, h2, h3, h4⟩
        refine ⟨?_, h2, h3, forall_mem_set _ _ _ _ h4 ?_⟩
        · have := sum_map_set (fun w : Worker => w.relay.live) ws k _
            { stage := Loop.sending (f x), relay := r } heq
          simp only [add_left_inj] at this
          rw [this]; exact h1
        · intro hr
          have := h4 _ hm hr
          simp at this
      · simp only [Node.hasReader]
        intro hne hs
        apply hne
        have := congrArg List.length hs
        simp only [List.length_set, List.length_nil] at this
        exact List.length_eq_zero.1 this
      · have := sum_map_set Worker.held ws k _
          { stage := Loop.sending (f x), relay := r } heq
        simp only [Worker.held, Loop.held_sending, Loop.held_recving, zero_add] at this
        simp only [Node.held, Node.transform]
        rw [← add_left_inj r.held, this]
        abel
      · rintro ⟨w, hw, hret⟩
        rcases List.mem_or_eq_of_mem_set hw with h | h
        · exact ⟨w, h, hret⟩
        · subst h; simp at hret
    · simp at h

theorem hasReader_set (f : File → File) (ws : List Worker) (wg wg' : Nat) (fd oc fd' oc' : Bool)
    (k : Nat) (w : Worker) (h : (Node.fanOut f ws wg fd oc).hasReader) :
    (Node.fanOut f (ws.set k w) wg' fd' oc').hasReader := by
  simp only [Node.hasReader] at h ⊢
  intro hs
  apply h
  have := congrArg List.length hs
  simp only [List.length_set, List.length_nil] at this
  exact List.length_eq_zero.1 this

theorem someReturned_set (f : File → File) (ws : List Worker) (wg wg' : Nat)
    (fd oc fd' oc' : Bool) (k : Nat) (w w0 : Worker) (hget : ws[k]? = some w0)
    (hw : w.stage = Loop.returned → w0.stage = Loop.returned)
    (h : (Node.fanOut f (ws.set k w) wg' fd' oc').someReturned) :
    (Node.fanOut f ws wg fd oc).someReturned := by
  obtain ⟨v, hv, hret⟩ := h
  rcases List.mem_or_eq_of_mem_set hv with h | h
  · exact ⟨v, h, hret⟩
  · subst h; exact ⟨w0, List.getElem?_mem hget, hw hret⟩

/-- A reader of the node finds the input closed: nothing moves. -/
theorem inputClosed_spec (n n' : Node) (k : Nat) (h : n.inputClosed k = some n') :
    Evolves n n' ∧ n'.held = n.held := by
  cases n with
  | stage f t =>
    cases t <;> cases k <;> simp only [Node.inputClosed, Option.some.injEq, reduceCtorEq] at h
    subst h
    exact ⟨⟨rfl, id, id, by simp [Node.outClosed]⟩, by simp [Node.held]⟩
  | fanOut f ws wg fd oc =>
    simp only [Node.inputClosed] at h
    split at h
    · rename_i r heq
      simp only [Option.some.injEq] at h
      subst h
      have hm := List.getElem?_mem heq
      refine ⟨⟨rfl, ?_, hasReader_set _ _ _ _ _ _ _ _ _ _, id⟩, ?_⟩
      · rintro ⟨h1, h2, h3, h4⟩
        refine ⟨?_, h2, h3, forall_mem_set _ _ _ _ h4 ?_⟩
        · have := sum_map_set (fun w : Worker => w.relay.live) ws k _
            { stage := Loop.returned, relay := r } heq
          simp only [add_left_inj] at this
          rw [this]; exact h1
        · intro _; rfl
      · have := sum_map_set Worker.held ws k _
          { stage := Loop.returned, relay := r } heq
        simp only [Worker.held, Loop.held_returned, Loop.held_recving, zero_add,
          add_left_inj] at this
        simp only [Node.held]
        exact this
    · simp at h

/-- A writer of the node completes its send: the file leaves the node. -/
theorem offer_spec (n n' : Node) (i : Nat) (y : File) (h : n.offer i = Res.ok (y, n')) :
    Evolves n n' ∧ n.held = n'.held + {y} ∧ (n'.someReturned → n.someReturned)
      ∧ n'.outClosed = n.outClosed := by
  cases n with
  | stage f t =>
    cases t <;> cases i <;> simp only [Node.offer, Res.ok.injEq, Prod.mk.injEq, reduceCtorEq] at h
    obtain ⟨rfl, rfl⟩ := h
    exact ⟨⟨rfl, id, id, by simp [Node.outClosed]⟩, by simp [Node.held],
      by simp [Node.someReturned], rfl⟩
  | fanOut f ws wg fd oc =>
    simp only [Node.offer] at h
    split at h
    · rename_i t y' heq
      split at h
      · simp at h
      · simp only [Res.ok.injEq, Prod.mk.injEq] at h
        obtain ⟨rfl, rfl⟩ := h
        have hm := List.getElem?_mem heq
        refine ⟨⟨rfl, ?_, hasReader_set _ _ _ _ _ _ _ _ _ _, id⟩, ?_,
          someReturned_set _ _ _ _ _ _ _ _ _ _ _ heq (by simp), rfl⟩
        · rintro ⟨h1, h2, h3, h4⟩
          refine ⟨?_, h2, h3, forall_mem_set _ _ _ _ h4 ?_⟩
          · have := sum_map_set (fun w : Worker => w.relay.live) ws i _
              { stage := t, relay := Loop.recving } heq
            simp only [Loop.live_recving, Loop.live_sending, add_left_inj] at this
            rw [this]; exact h1
          · intro hr; simp at hr
        · have := sum_map_set Worker.held ws i _
            { stage := t, relay := Loop.recving } heq
          simp only [Worker.held, Loop.held_sending, Loop.held_recving, add_zero] at this
          simp only [Node.held]
          rw [← add_left_inj t.held, ← this]
          abel
    · simp at h

theorem offer_no_panic (n : Node) (i : Nat) (hok : n.ok) : n.offer i ≠ Res.panic := by
  intro h
  cases n with
  | stage f t => cases t <;> cases i <;> simp [Node.offer] at h
  | fanOut f ws wg fd oc =>
    simp only [Node.offer] at h
    split at h
    · rename_i t y heq
      split at h
      · rename_i hoc
        obtain ⟨h1, -, h3, -⟩ := hok
        have := le_sum_map_of_mem (fun w : Worker => w.relay.live) ws _ (List.getElem?_mem heq)
        simp only [Loop.live_sending] at this
        have := h3 hoc
        omega
      · simp at h
    · simp at h

/-- A statement inside the node: nothing enters or leaves. -/
theorem inner_spec (n n' : Node) (a : Inner) (h : n.inner a = Res.ok n') :
    Evolves n n' ∧ n'.held = n.held ∧ (n'.someReturned → n.someReturned) := by
  cases n with
  | stage f t => simp [Node.inner] at h
  | fanOut f ws wg fd oc =>
    cases a with
    | sub k =>
      simp only [Node.inner] at h
      split at h
      · rename_i y heq
        simp only [Res.ok.injEq] at h
        subst h
        refine ⟨⟨rfl, ?_, hasReader_set _ _ _ _ _ _ _ _ _ _, id⟩, ?_,
          someReturned_set _ _ _ _ _ _ _ _ _ _ _ heq (by simp)⟩
        · rintro ⟨h1, h2, h3, h4⟩
          refine ⟨?_, h2, h3, forall_mem_set _ _ _ _ h4 ?_⟩
          · have := sum_map_set (fun w : Worker => w.relay.live) ws k _
              { stage := Loop.recving, relay := Loop.sending y } heq
            simp only [Loop.live_recving, Loop.live_sending, add_left_inj] at this
            rw [this]; exact h1
          · intro hr; simp at hr
        · have := sum_map_set Worker.held ws k _
            { stage := Loop.recving, relay := Loop.sending y } heq
          simp only [Worker.held, Loop.held_sending, Loop.held_recving, add_zero, zero_add,
            add_left_inj] at this
          simp only [Node.held]
          exact this
      · simp at h
    | subClosed k =>
      simp only [Node.inner] at h
      split at h
      · rename_i heq
        split at h
        · simp at h
        · rename_i hwg
          simp only [Res.ok.injEq] at h
          subst h
          refine ⟨⟨rfl, ?_, hasReader_set _ _ _ _ _ _ _ _ _ _, id⟩, ?_,
            someReturned_set _ _ _ _ _ _ _ _ _ _ _ heq (by simp)⟩
          · rintro ⟨h1, h2, h3, h4⟩
            refine ⟨?_, h2, ?_, forall_mem_set _ _ _ _ h4 ?_⟩
            · have := sum_map_set (fun w : Worker => w.relay.live) ws k _
                { stage := Loop.returned, relay := Loop.returned } heq
              simp only [Loop.live_recving, Loop.live_returned] at this
              omega
            · intro hoc; have := h3 hoc; omega
            · intro _; rfl
          · have := sum_map_set Worker.held ws k _
              { stage := Loop.returned, relay := Loop.returned } heq
            simp only [Worker.held, Loop.held_returned, Loop.held_recving, add_zero,
              add_left_inj] at this
            simp only [Node.held]
            exact this
      · simp at h
    | closeOut =>
      simp only [Node.inner] at h
      split at h
      · rename_i hg
        split at h
        · simp at h
        · simp only [Res.ok.injEq] at h
          subst h
          refine ⟨⟨rfl, ?_, id, fun _ => rfl⟩, rfl, id⟩
          rintro ⟨h1, h2, h3, h4⟩
          exact ⟨h1, rfl, fun _ => hg.2, h4⟩
      · simp at h

theorem inner_no_panic (n : Node) (a : Inner) (hok : n.ok) : n.inner a ≠ Res.panic := by
  intro h
  cases n with
  | stage f t => simp [Node.inner] at h
  | fanOut f ws wg fd oc =>
    obtain ⟨h1, h2, h3, -⟩ := hok
    cases a with
    | sub k =>
      simp only [Node.inner] at h
      split at h <;> simp at h
    | subClosed k =>
      simp only [Node.inner] at h
      split at h
      · rename_i heq
        split at h
        · rename_i hwg
          have := le_sum_map_of_mem (fun w : Worker => w.relay.live) ws _ (List.getElem?_mem heq)
          simp only [Loop.live_recving] at this
          omega
        · simp at h
      · simp at h
    | closeOut =>
      simp only [Node.inner] at h
      split at h
      · rename_i hg
        split at h
        · rename_i hoc
          rw [hg.1] at h2
          simp [← h2] at hoc
        · simp at h
      · simp at h

theorem map_transform_set (nodes : List Node) (j : Nat) (n n' : Node)
    (hget : nodes[j]? = some n) (ht : n'.transform = n.transform) :
    (nodes.set j n').map Node.transform = nodes.map Node.transform := by
  induction nodes generalizing j with
  | nil => rfl
  | cons m rest ih =>
    cases j with
    | zero =>
      simp only [List.getElem?_cons_zero, Option.some.injEq] at hget
      subst hget
      simp [ht]
    | succ j =>
      simp only [List.getElem?_cons_succ] at hget
      simp only [List.set_cons_succ, List.map_cons, ih j hget]

/-- Replacing node `j` changes the files inside the pipeline by what node `j` holds. -/
theorem inside_set (nodes : List Node) (j : Nat) (n n' : Node)
    (hget : nodes[j]? = some n) (ht : n'.transform = n.transform) :
    inside (nodes.set j n') + n.held.map (comp ((nodes.drop (j + 1)).map Node.transform))
      = inside nodes + n'.held.map (comp ((nodes.drop (j + 1)).map Node.transform)) := by
  induction nodes generalizing j with
  | nil => simp at hget
  | cons m rest ih =>
    cases j with
    | zero =>
      simp only [List.getElem?_cons_zero, Option.some.injEq] at hget
      subst hget
      simp only [List.set_cons_zero, inside, List.drop_succ_cons, List.drop_zero]
      abel
    | succ j =>
      simp only [List.getElem?_cons_succ] at hget
      simp only [List.set_cons_succ, inside, List.drop_succ_cons,
        map_transform_set rest j n n' hget ht]
      rw [add_assoc, ih j hget, add_assoc]

theorem comp_drop (nodes : List Node) (j : Nat) (n : Node) (hget : nodes[j]? = some n)
    (y : File) :
    comp ((nodes.drop j).map Node.transform) y
      = comp ((nodes.drop (j + 1)).map Node.transform) (n.transform y) := by
  induction nodes generalizing j with
  | nil => simp at hget
  | cons m rest ih =>
    cases j with
    | zero =>
      simp only [List.getElem?_cons_zero, Option.some.injEq] at hget
      subst hget
      simp [comp]
    | succ j =>
      simp only [List.getElem?_cons_succ] at hget
      simpa using ih j hget

/-- State with node `j` replaced. -/
theorem upClosed_set (s : State) (j : Nat) (n n' : Node) (hget : s.nodes[j]? = some n)
    (hc : n.outClosed = true → n'.outClosed = true) (j' : Nat)
    (h : upClosed s j' = true) :
    upClosed { s with nodes := s.nodes.set j n' } j' = true := by
  cases j' with
  | zero => exact h
  | succ j' =>
    simp only [upClosed] at h ⊢
    by_cases hj : j = j'
    · subst hj
      rw [hget] at h
      have hlt : j < s.nodes.length := by
        by_contra hge
        rw [List.getElem?_eq_none (by omega)] at hget
        simp at hget
      rw [List.getElem?_set_self hlt]
      exact hc h
    · rw [List.getElem?_set_ne hj]
      exact h

theorem upClosed_set_self (s : State) (j : Nat) (n' : Node) :
    upClosed { s with nodes := s.nodes.set j n' } j = upClosed s j := by
  cases j with
  | zero => rfl
  | succ j =>
    simp only [upClosed]
    rw [List.getElem?_set_ne (by omega)]

/-- The invariant survives a statement of a goroutine of node `j`. -/
theorem inv_set (s : State) (j : Nat) (n n' : Node) (hi : Inv s) (hget : s.nodes[j]? = some n)
    (hev : Evolves n n') (hret : n'.someReturned → n.someReturned ∨ upClosed s j = true) :
    Inv { s with nodes := s.nodes.set j n' } := by
  obtain ⟨hp, hsrc, hnodes⟩ := hi
  refine ⟨hp, hsrc, ?_⟩
  intro j' m hm
  have hlt : j < s.nodes.length := by
    by_contra hge
    rw [List.getElem?_eq_none (by omega)] at hget
    simp at hget
  by_cases hj : j = j'
  · subst hj
    simp only [List.getElem?_set_self hlt, Option.some.injEq] at hm
    subst hm
    obtain ⟨h1, h2, h3⟩ := hnodes j n hget
    refine ⟨hev.ok h1, hev.reader h2, ?_⟩
    intro hr
    rw [upClosed_set_self]
    rcases hret hr with h | h
    · exact h3 h
    · exact h
  · simp only [List.getElem?_set_ne hj] at hm
    obtain ⟨h1, h2, h3⟩ := hnodes j' m hm
    exact ⟨h1, h2, fun hr => upClosed_set s j n n' hget hev.closed j' (h3 hr)⟩

theorem total_set (s : State) (j : Nat) (n n' : Node) (hget : s.nodes[j]? = some n)
    (ht : n'.transform = n.transform) :
    State.total { s with nodes := s.nodes.set j n' }
        + n.held.map (comp ((s.nodes.drop (j + 1)).map Node.transform))
      = s.total + n'.held.map (comp ((s.nodes.drop (j + 1)).map Node.transform)) := by
  simp only [State.total, map_transform_set s.nodes j n n' hget ht]
  have := inside_set s.nodes j n n' hget ht
  rw [add_assoc, add_assoc, add_comm _ (Multiset.map _ n.held), ← add_assoc (inside _), this]
  abel

/-- The writer side of a channel completes a send: the file is out of `total`
until the reader side has it. -/
theorem take_spec (s s1 : State) (j i : Nat) (y : File) (hi : Inv s)
    (h : take s j i = Res.ok (y, s1)) :
    Inv s1 ∧ s1.total + {comp ((s.nodes.drop j).map Node.transform) y} = s.total
      ∧ s1.nodes.map Node.transform = s.nodes.map Node.transform
      ∧ s1.nodes.length = s.nodes.length := by
  cases j with
  | zero =>
    simp only [take] at h
    split at h
    · rename_i x xs hpend
      simp only [Res.ok.injEq, Prod.mk.injEq] at h
      obtain ⟨rfl, rfl⟩ := h
      refine ⟨⟨hi.noPanic, ?_, hi.nodeOk⟩, ?_, rfl, rfl⟩
      · intro hc
        have := hi.srcDrained hc
        simp [hpend] at this
      · simp only [State.total, hpend, List.drop_zero, ← Multiset.cons_coe, Multiset.map_cons]
        rw [← Multiset.singleton_add]
        abel
    · simp at h
  | succ j =>
    simp only [take] at h
    split at h
    · rename_i n hget
      split at h
      · rename_i y' n' hoff
        simp only [Res.ok.injEq, Prod.mk.injEq] at h
        obtain ⟨rfl, rfl⟩ := h
        obtain ⟨hev, hheld, hsr, -⟩ := offer_spec n n' i _ hoff
        refine ⟨inv_set s j n n' hi hget hev (fun hr => Or.inl (hsr hr)), ?_,
          map_transform_set _ _ _ _ hget hev.transform_eq, by simp⟩
        have := total_set s j n n' hget hev.transform_eq
        rw [hheld, Multiset.map_add, Multiset.map_singleton, ← add_assoc, add_right_comm] at this
        exact add_right_cancel this
      · simp at h
      · simp at h
    · simp at h

theorem take_no_panic (s : State) (j i : Nat) (hi : Inv s) : take s j i ≠ Res.panic := by
  intro h
  cases j with
  | zero =>
    simp only [take] at h
    split at h <;> simp at h
  | succ j =>
    simp only [take] at h
    split at h
    · rename_i n hget
      split at h
      · simp at h
      · rename_i hoff
        exact offer_no_panic n i (hi.nodeOk j n hget).1 hoff
      · simp at h
    · simp at h

/-- The reader side of a channel completes its receive. -/
theorem give_spec (s s' : State) (j k : Nat) (y : File) (hi : Inv s)
    (h : give s j k y = some s') :
    Inv s' ∧ s'.total = s.total + {comp ((s.nodes.drop j).map Node.transform) y}
      ∧ s'.nodes.map Node.transform = s.nodes.map Node.transform := by
  simp only [give] at h
  split at h
  · rename_i hj
    simp only [Option.some.injEq] at h
    subst h
    refine ⟨⟨hi.noPanic, hi.srcDrained, hi.nodeOk⟩, ?_, rfl⟩
    simp only [State.total, hj, List.drop_length, List.map_nil, comp, ← Multiset.coe_add,
      Multiset.coe_singleton]
    abel
  · split at h
    · rename_i n hget
      split at h
      · rename_i n' hacc
        simp only [Option.some.injEq] at h
        subst h
        obtain ⟨hev, hheld, hsr, -⟩ := accept_spec n n' k y hacc
        refine ⟨inv_set s j n n' hi hget hev (fun hr => Or.inl (hsr hr)), ?_,
          map_transform_set _ _ _ _ hget hev.transform_eq⟩
        have := total_set s j n n' hget hev.transform_eq
        rw [hheld, Multiset.map_add, Multiset.map_singleton, ← add_assoc, add_right_comm] at this
        rw [comp_drop s.nodes j n hget]
        exact add_right_cancel this
      · simp at h
    · simp at h

/-- Every step keeps the invariant, the stages and the total. -/
theorem step_spec (s s' : State) (a : Act) (hi : Inv s) (h : step s a = some s') :
    Inv s' ∧ s'.total = s.total ∧ s'.nodes.map Node.transform = s.nodes.map Node.transform := by
  unfold step at h
  split at h
  · simp at h
  · split at h
    · -- closeSrc
      split at h
      · rename_i hpend hclosed
        simp only [Option.some.injEq] at h
        subst h
        refine ⟨⟨hi.noPanic, fun _ => hpend, ?_⟩, rfl, rfl⟩
        intro j n hget
        obtain ⟨h1, h2, h3⟩ := hi.nodeOk j n hget
        refine ⟨h1, h2, fun hr => ?_⟩
        have := h3 hr
        cases j with
        | zero => rfl
        | succ j => exact this
      · simp at h
    · -- move
      rename_i j i k
      split at h
      · rename_i y s1 htake
        obtain ⟨hi1, ht1, hf1, hl1⟩ := take_spec s s1 j i y hi htake
        obtain ⟨hi2, ht2, hf2⟩ := give_spec s1 s' j k y hi1 h
        refine ⟨hi2, ?_, hf2.trans hf1⟩
        rw [ht2, ← ht1]
        congr 2
        rw [List.map_drop, List.map_drop, hf1]
      · rename_i htake
        exact absurd htake (take_no_panic s j i hi)
      · simp at h
    · -- eof
      rename_i j k
      split at h
      · rename_i hup
        split at h
        · rename_i n hget
          split at h
          · rename_i n' hic
            simp only [Option.some.injEq] at h
            subst h
            obtain ⟨hev, hheld⟩ := inputClosed_spec n n' k hic
            refine ⟨inv_set s j n n' hi hget hev (fun _ => Or.inr hup), ?_,
              map_transform_set _ _ _ _ hget hev.transform_eq⟩
            have := total_set s j n n' hget hev.transform_eq
            rw [hheld] at this
            exact add_right_cancel this
          · simp at h
        · simp at h
      · simp at h
    · -- inner
      rename_i j a
      split at h
      · rename_i n hget
        split at h
        · rename_i n' hin
          simp only [Option.some.injEq] at h
          subst h
          obtain ⟨hev, hheld, hsr⟩ := inner_spec n n' a hin
          refine ⟨inv_set s j n n' hi hget hev (fun hr => Or.inl (hsr hr)), ?_,
            map_transform_set _ _ _ _ hget hev.transform_eq⟩
          have := total_set s j n n' hget hev.transform_eq
          rw [hheld] at this
          exact add_right_cancel this
        · rename_i hin
          exact absurd hin (inner_no_panic n a (hi.nodeOk _ n hget).1)
        · simp at h
      · simp at h

theorem inside_eq_zero (nodes : List Node) (h : ∀ n ∈ nodes, n.held = 0) : inside nodes = 0 := by
  induction nodes with
  | nil => rfl
  | cons m rest ih =>
    simp only [inside, h m (List.mem_cons_self _ _), Multiset.map_zero, zero_add]
    exact ih fun n hn => h n (List.mem_cons_of_mem _ hn)

/-- A node whose output is closed holds nothing and all its readers have returned. -/
theorem closed_drained (n : Node) (hok : n.ok) (hr : n.hasReader) (hc : n.outClosed = true) :
    n.held = 0 ∧ n.someReturned := by
  cases n with
  | stage f t =>
    cases t <;> simp only [Node.outClosed, Bool.false_eq_true] at hc
    exact ⟨rfl, rfl⟩
  | fanOut f ws wg fd oc =>
    obtain ⟨h1, -, h3, h4⟩ := hok
    simp only [Node.outClosed] at hc
    have h0 := h3 hc
    have hall : ∀ w ∈ ws, w.relay = Loop.returned ∧ w.stage = Loop.returned := by
      intro w hw
      have := le_sum_map_of_mem (fun w : Worker => w.relay.live) ws w hw
      have hrel : w.relay = Loop.returned := by
        cases hrel : w.relay with
        | returned => rfl
        | recving => simp [hrel] at this; omega
        | sending y => simp [hrel] at this; omega
      exact ⟨hrel, h4 w hw hrel⟩
    constructor
    · simp only [Node.held]
      apply sum_eq_zero_of_forall
      intro w hw
      simp [Worker.held, (hall w hw).1, (hall w hw).2]
    · simp only [Node.hasReader] at hr
      obtain ⟨w, hw⟩ := List.exists_mem_of_ne_nil ws hr
      exact ⟨w, hw, (hall w hw).2⟩

/-- Once channel `j` is closed, everything before it is empty. -/
theorem upstream_empty (s : State) (hi : Inv s) (j : Nat) (h : upClosed s j = true) :
    s.pending = [] ∧ ∀ (j' : Nat) (n : Node), j' < j → s.nodes[j']? = some n → n.held = 0 := by
  induction j with
  | zero => exact ⟨hi.srcDrained h, fun j' n hlt => by omega⟩
  | succ j ih =>
    simp only [upClosed] at h
    split at h
    · rename_i n hget
      obtain ⟨hok, hr, hup⟩ := hi.nodeOk j n hget
      obtain ⟨hheld, hsome⟩ := closed_drained n hok hr h
      obtain ⟨hp, hrest⟩ := ih (hup hsome)
      refine ⟨hp, fun j' m hlt hm => ?_⟩
      by_cases hj : j' = j
      · subst hj
        rw [hget] at hm
        simp only [Option.some.injEq] at hm
        subst hm
        exact hheld
      · exact hrest j' m (by omega) hm
    · simp at h

/-- When the consumer sees its channel closed it has received everything. -/
theorem received_of_done (s : State) (hi : Inv s) (h : s.done = true) :
    Multiset.ofList s.received = s.total := by
  obtain ⟨hp, hrest⟩ := upstream_empty s hi _ h
  have hin : inside s.nodes = 0 := by
    apply inside_eq_zero
    intro n hn
    obtain ⟨j, hj⟩ := List.getElem?_of_mem hn
    have hlt : j < s.nodes.length := by
      by_contra hge
      rw [List.getElem?_eq_none (by omega)] at hj
      simp at hj
    exact hrest j n hlt hj
  simp [State.total, hin, hp]

theorem inv_start (files : List File) (nodes : List Node)
    (h : ∀ n ∈ nodes, n.ok ∧ n.hasReader ∧ ¬ n.someReturned) : Inv (start files nodes) := by
  refine ⟨rfl, by simp [start], ?_⟩
  intro j n hget
  obtain ⟨h1, h2, h3⟩ := h n (List.getElem?_mem hget)
  exact ⟨h1, h2, fun hr => absurd hr h3⟩

theorem total_start (files : List File) (nodes : List Node) (h : ∀ n ∈ nodes, n.held = 0) :
    (start files nodes).total
      = (Multiset.ofList files).map (comp (nodes.map Node.transform)) := by
  simp [State.total, start, inside_eq_zero nodes h]

/-- Safety of a pipeline: in every state of every execution the invariant
holds and the total is what the stages make of the generated files. -/
theorem run_spec (files : List File) (nodes : List Node)
    (h : ∀ n ∈ nodes, n.ok ∧ n.hasReader ∧ ¬ n.someReturned) (h0 : ∀ n ∈ nodes, n.held = 0)
    (acts : List Act) (s : State) (hrun : run step (start files nodes) acts = some s) :
    Inv s ∧ s.total = (Multiset.ofList files).map (comp (nodes.map Node.transform))
      ∧ s.nodes.map Node.transform = nodes.map Node.transform := by
  have := run_invariant step
    (fun s => Inv s ∧ s.total = (Multiset.ofList files).map (comp (nodes.map Node.transform))
      ∧ s.nodes.map Node.transform = nodes.map Node.transform)
    (fun s a s' hs hstep => by
      obtain ⟨h1, h2, h3⟩ := step_spec s s' a hs.1 hstep
      exact ⟨h1, h2.trans hs.2.1, h3.trans hs.2.2⟩)
    (start files nodes) acts s ⟨inv_start files nodes h, total_start files nodes h0, rfl⟩ hrun
  exact this

theorem comp_eq_foldl {β : Type} (tr : β → File → File) (p : List β) (x : File) :
    comp (p.map tr) x = p.foldl (fun file st => tr st file) x := by
  induction p generalizing x with
  | nil => rfl
  | cons st p ih => simp only [List.map_cons, comp, List.foldl_cons, ih]

end Chain


namespace Chain

@[simp] theorem Loop.busy_sending (y : File) : (Loop.sending y).busy = 1 := rfl
@[simp] theorem Loop.busy_recving : Loop.recving.busy = 0 := rfl
@[simp] theorem Loop.busy_returned : Loop.returned.busy = 0 := rfl

theorem accept_work (n n' : Node) (k : Nat) (x : File) (h : n.accept k x = some n') :
    n'.extra = n.extra ∧ ∀ p, n'.work p = n.work p + (n.extra + p) := by
  cases n with
  | stage f t =>
    cases t <;> cases k <;> simp only [Node.accept, Option.some.injEq, reduceCtorEq] at h
    subst h
    exact ⟨rfl, fun p => by simp [Node.work, Node.extra]; omega⟩
  | fanOut f ws wg fd oc =>
    simp only [Node.accept] at h
    split at h
    · rename_i r heq
      simp only [Option.some.injEq] at h
      subst h
      refine ⟨rfl, fun p => ?_⟩
      have := sum_map_set (Worker.work p) ws k _ { stage := Loop.sending (f x), relay := r } heq
      simp only [Worker.work, Loop.busy_sending, Loop.busy_recving, Loop.live_sending,
        Loop.live_recving] at this
      simp only [Node.work, Node.extra]
      omega
    · simp at h

theorem inputClosed_work (n n' : Node) (k : Nat) (h : n.inputClosed k = some n') :
    n'.extra = n.extra ∧ ∀ p, n.work p = n'.work p + 1 := by
  cases n with
  | stage f t =>
    cases t <;> cases k <;> simp only [Node.inputClosed, Option.some.injEq, reduceCtorEq] at h
    subst h
    exact ⟨rfl, fun p => by simp [Node.work]⟩
  | fanOut f ws wg fd oc =>
    simp only [Node.inputClosed] at h
    split at h
    · rename_i r heq
      simp only [Option.some.injEq] at h
      subst h
      refine ⟨rfl, fun p => ?_⟩
      have := sum_map_set (Worker.work p) ws k _ { stage := Loop.returned, relay := r } heq
      simp only [Worker.work, Loop.busy_returned, Loop.busy_recving, Loop.live_returned,
        Loop.live_recving] at this
      simp only [Node.work]
      omega
    · simp at h

theorem offer_work (n n' : Node) (i : Nat) (y : File) (h : n.offer i = Res.ok (y, n')) :
    n'.extra = n.extra ∧ ∀ p, n.work p = n'.work p + p := by
  cases n with
  | stage f t =>
    cases t <;> cases i <;> simp only [Node.offer, Res.ok.injEq, Prod.mk.injEq, reduceCtorEq] at h
    obtain ⟨rfl, rfl⟩ := h
    exact ⟨rfl, fun p => by simp [Node.work]; omega⟩
  | fanOut f ws wg fd oc =>
    simp only [Node.offer] at h
    split at h
    · rename_i t y' heq
      split at h
      · simp at h
      · simp only [Res.ok.injEq, Prod.mk.injEq] at h
        obtain ⟨rfl, rfl⟩ := h
        refine ⟨rfl, fun p => ?_⟩
        have := sum_map_set (Worker.work p) ws i _ { stage := t, relay := Loop.recving } heq
        simp only [Worker.work, Loop.busy_sending, Loop.busy_recving, Loop.live_sending,
          Loop.live_recving] at this
        simp only [Node.work]
        omega
    · simp at h

theorem inner_work (n n' : Node) (a : Inner) (h : n.inner a = Res.ok n') :
    n'.extra = n.extra ∧ ∀ p, n.work p = n'.work p + 1 := by
  cases n with
  | stage f t => simp [Node.inner] at h
  | fanOut f ws wg fd oc =>
    cases a with
    | sub k =>
      simp only [Node.inner] at h
      split at h
      · rename_i y heq
        simp only [Res.ok.injEq] at h
        subst h
        refine ⟨rfl, fun p => ?_⟩
        have := sum_map_set (Worker.work p) ws k _
          { stage := Loop.recving, relay := Loop.sending y } heq
        simp only [Worker.work, Loop.busy_sending, Loop.busy_recving, Loop.live_sending,
          Loop.live_recving] at this
        simp only [Node.work]
        omega
      · simp at h
    | subClosed k =>
      simp only [Node.inner] at h
      split at h
      · rename_i heq
        split at h
        · simp at h
        · simp only [Res.ok.injEq] at h
          subst h
          refine ⟨rfl, fun p => ?_⟩
          have := sum_map_set (Worker.work p) ws k _
            { stage := Loop.returned, relay := Loop.returned } heq
          simp only [Worker.work, Loop.busy_returned, Loop.busy_recving, Loop.live_returned,
            Loop.live_recving] at this
          simp only [Node.work]
          omega
      · simp at h
    | closeOut =>
      simp only [Node.inner] at h
      split at h
      · rename_i hg
        split at h
        · simp at h
        · simp only [Res.ok.injEq] at h
          subst h
          refine ⟨rfl, fun p => ?_⟩
          simp [Node.work, hg.1]
      · simp at h

theorem map_extra_set (nodes : List Node) (j : Nat) (n n' : Node)
    (hget : nodes[j]? = some n) (ht : n'.extra = n.extra) :
    (nodes.set j n').map Node.extra = nodes.map Node.extra := by
  induction nodes generalizing j with
  | nil => rfl
  | cons m rest ih =>
    cases j with
    | zero =>
      simp only [List.getElem?_cons_zero, Option.some.injEq] at hget
      subst hget
      simp [ht]
    | succ j =>
      simp only [List.getElem?_cons_succ] at hget
      simp only [List.set_cons_succ, List.map_cons, ih j hget]

theorem work_set (nodes : List Node) (j : Nat) (n n' : Node)
    (hget : nodes[j]? = some n) (ht : n'.extra = n.extra) :
    work (nodes.set j n') + n.work (pot ((nodes.drop (j + 1)).map Node.extra))
      = work nodes + n'.work (pot ((nodes.drop (j + 1)).map Node.extra)) := by
  induction nodes generalizing j with
  | nil => simp at hget
  | cons m rest ih =>
    cases j with
    | zero =>
      simp only [List.getElem?_cons_zero, Option.some.injEq] at hget
      subst hget
      simp only [List.set_cons_zero, work, List.drop_succ_cons, List.drop_zero]
      omega
    | succ j =>
      simp only [List.getElem?_cons_succ] at hget
      simp only [List.set_cons_succ, work, List.drop_succ_cons,
        map_extra_set rest j n n' hget ht]
      have := ih j hget
      omega

theorem pot_drop (nodes : List Node) (j : Nat) (n : Node) (hget : nodes[j]? = some n) :
    pot ((nodes.drop j).map Node.extra)
      = 1 + n.extra + pot ((nodes.drop (j + 1)).map Node.extra) := by
  induction nodes generalizing j with
  | nil => simp at hget
  | cons m rest ih =>
    cases j with
    | zero =>
      simp only [List.getElem?_cons_zero, Option.some.injEq] at hget
      subst hget
      simp [pot]
    | succ j =>
      simp only [List.getElem?_cons_succ] at hget
      simpa using ih j hget

theorem todo_set (s : State) (j : Nat) (n n' : Node) (hget : s.nodes[j]? = some n)
    (ht : n'.extra = n.extra) :
    State.todo { s with nodes := s.nodes.set j n' }
        + n.work (pot ((s.nodes.drop (j + 1)).map Node.extra))
      = s.todo + n'.work (pot ((s.nodes.drop (j + 1)).map Node.extra)) := by
  simp only [State.todo, map_extra_set s.nodes j n n' hget ht]
  have := work_set s.nodes j n n' hget ht
  omega

theorem take_todo (s s1 : State) (j i : Nat) (y : File)
    (h : take s j i = Res.ok (y, s1)) :
    s.todo = s1.todo + pot ((s.nodes.drop j).map Node.extra)
      ∧ s1.nodes.map Node.extra = s.nodes.map Node.extra
      ∧ s1.nodes[j]? = s.nodes[j]? ∧ s1.nodes.length = s.nodes.length
      ∧ s1.panicked = s.panicked := by
  cases j with
  | zero =>
    simp only [take] at h
    split at h
    · rename_i x xs hpend
      simp only [Res.ok.injEq, Prod.mk.injEq] at h
      obtain ⟨rfl, rfl⟩ := h
      refine ⟨?_, rfl, rfl, rfl, rfl⟩
      simp only [State.todo, hpend, List.length_cons, List.drop_zero]
      rw [Nat.succ_mul]
      omega
    · simp at h
  | succ j =>
    simp only [take] at h
    split at h
    · rename_i n hget
      split at h
      · rename_i y' n' hoff
        simp only [Res.ok.injEq, Prod.mk.injEq] at h
        obtain ⟨rfl, rfl⟩ := h
        obtain ⟨hex, hw⟩ := offer_work n n' i _ hoff
        refine ⟨?_, map_extra_set _ _ _ _ hget hex, ?_, by simp, rfl⟩
        · have := todo_set s j n n' hget hex
          rw [hw] at this
          omega
        · simp only
          rw [List.getElem?_set_ne (by omega)]
      · simp at h
      · simp at h
    · simp at h

theorem give_todo (s s' : State) (j k : Nat) (y : File) (h : give s j k y = some s') :
    s'.todo + 1 = s.todo + pot ((s.nodes.drop j).map Node.extra) := by
  simp only [give] at h
  split at h
  · rename_i hj
    simp only [Option.some.injEq] at h
    subst h
    simp [State.todo, hj, pot]
  · split at h
    · rename_i n hget
      split at h
      · rename_i n' hacc
        simp only [Option.some.injEq] at h
        subst h
        obtain ⟨hex, hw⟩ := accept_work n n' k y hacc
        have := todo_set s j n n' hget hex
        rw [hw] at this
        rw [pot_drop s.nodes j n hget]
        omega
      · simp at h
    · simp at h

/-- Every step brings the execution one statement closer to its end. -/
theorem chain_todo_step (s s' : State) (a : Act) (hi : Inv s) (h : step s a = some s') :
    s'.todo + 1 = s.todo := by
  unfold step at h
  split at h
  · simp at h
  · split at h
    · split at h
      · rename_i hpend hclosed
        simp only [Option.some.injEq] at h
        subst h
        simp only [State.todo, hclosed, Bool.false_eq_true, ↓reduceIte]
        omega
      · simp at h
    · rename_i j i k
      split at h
      · rename_i y s1 htake
        obtain ⟨h1, h2, -, -, -⟩ := take_todo s s1 j i y htake
        have h3 := give_todo s1 s' j k y h
        rw [List.map_drop, h2, ← List.map_drop] at h3
        omega
      · rename_i htake
        exact absurd htake (take_no_panic s j i hi)
      · simp at h
    · rename_i j k
      split at h
      · split at h
        · rename_i n hget
          split at h
          · rename_i n' hic
            simp only [Option.some.injEq] at h
            subst h
            obtain ⟨hex, hw⟩ := inputClosed_work n n' k hic
            have := todo_set s j n n' hget hex
            rw [hw] at this
            omega
          · simp at h
        · simp at h
      · simp at h
    · rename_i j a
      split at h
      · rename_i n hget
        split at h
        · rename_i n' hin
          simp only [Option.some.injEq] at h
          subst h
          obtain ⟨hex, hw⟩ := inner_work n n' a hin
          have := todo_set s j n n' hget hex
          rw [hw] at this
          omega
        · rename_i hin
          exact absurd hin (inner_no_panic n a (hi.nodeOk _ n hget).1)
        · simp at h
      · simp at h

/-- What a node that is consistent and has a reader can do next: send, or it is
closed, or take a statement of its own, or one of its readers waits for input. -/
theorem node_progress (n : Node) (hok : n.ok) (hr : n.hasReader) :
    (∃ i y n', n.offer i = Res.ok (y, n')) ∨ n.outClosed = true
      ∨ (∃ a n', n.inner a = Res.ok n')
      ∨ (∃ k, (∀ x, ∃ n', n.accept k x = some n') ∧ ∃ n', n.inputClosed k = some n') := by
  cases n with
  | stage f t =>
    cases t with
    | recving => exact Or.inr (Or.inr (Or.inr ⟨0, fun x => ⟨_, rfl⟩, _, rfl⟩))
    | sending y => exact Or.inl ⟨0, y, _, rfl⟩
    | returned => exact Or.inr (Or.inl rfl)
  | fanOut f ws wg fd oc =>
    obtain ⟨h1, h2, h3, h4⟩ := hok
    cases hoc : oc with
    | true => exact Or.inr (Or.inl rfl)
    | false =>
      subst hoc
      by_cases h0 : wg = 0
      · refine Or.inr (Or.inr (Or.inl ⟨Inner.closeOut, Node.fanOut f ws wg true true, ?_⟩))
        simp [Node.inner, h2, h0]
      · rw [h1] at h0
        obtain ⟨k, w, hget, hlive⟩ := exists_live _ _ h0
        obtain ⟨t, r⟩ := w
        have hwk := h4 _ (List.getElem?_mem hget)
        cases r with
        | returned => simp at hlive
        | sending y =>
          exact Or.inl ⟨k, y, _, by simp only [Node.offer, hget]; rfl⟩
        | recving =>
          cases t with
          | sending y =>
            exact Or.inr (Or.inr (Or.inl ⟨Inner.sub k, _, by simp only [Node.inner, hget]; rfl⟩))
          | returned =>
            refine Or.inr (Or.inr (Or.inl ⟨Inner.subClosed k,
              Node.fanOut f (ws.set k { stage := Loop.returned, relay := Loop.returned })
                (wg - 1) fd false, ?_⟩))
            have : wg ≠ 0 := by rw [h1]; exact h0
            simp [Node.inner, hget, this]
          | recving =>
            exact Or.inr (Or.inr (Or.inr ⟨k, fun x => ⟨_, by simp only [Node.accept, hget]; rfl⟩,
              _, by simp only [Node.inputClosed, hget]; rfl⟩))

/-- Channel by channel: either some goroutine can take a step, or the channel
is closed, or a writer stands ready on it. -/
theorem link_progress (s : State) (hi : Inv s) (j : Nat) (hj : j ≤ s.nodes.length) :
    (∃ a s', step s a = some s') ∨ upClosed s j = true
      ∨ (∃ i y s1, take s j i = Res.ok (y, s1)) := by
  have hp := hi.noPanic
  induction j with
  | zero =>
    cases hpend : s.pending with
    | cons x xs => exact Or.inr (Or.inr ⟨0, x, _, by simp only [take, hpend]; rfl⟩)
    | nil =>
      cases hc : s.srcClosed with
      | true => exact Or.inr (Or.inl hc)
      | false =>
        exact Or.inl ⟨Act.closeSrc, { s with srcClosed := true }, by simp [step, hp, hpend, hc]⟩
  | succ j ih =>
    have hlt : j < s.nodes.length := by omega
    obtain ⟨n, hget⟩ : ∃ n, s.nodes[j]? = some n := ⟨s.nodes[j], List.getElem?_eq_getElem hlt⟩
    obtain ⟨hok, hr, -⟩ := hi.nodeOk j n hget
    rcases node_progress n hok hr with ⟨i, y, n', hoff⟩ | hc | ⟨a, n', hin⟩ | ⟨k, hacc, n', hic⟩
    · exact Or.inr (Or.inr ⟨i, y, _, by simp only [take, hget, hoff]; rfl⟩)
    · exact Or.inr (Or.inl (by simp only [upClosed, hget, hc]))
    · exact Or.inl ⟨Act.inner j a, _, by simp only [step, hp, hget, hin]; rfl⟩
    · rcases ih (by omega) with hstep | hup | ⟨i, y, s1, htake⟩
      · exact Or.inl hstep
      · exact Or.inl ⟨Act.eof j k, _, by simp only [step, hp, hup, hget, hic]; rfl⟩
      · obtain ⟨-, -, hsame, hlen, -⟩ := take_todo s s1 j i y htake
        obtain ⟨n1, hn1⟩ := hacc y
        refine Or.inl ⟨Act.move j i k, { s1 with nodes := s1.nodes.set j n1 }, ?_⟩
        have hne : ¬ j = s1.nodes.length := by omega
        simp only [step, hp, htake, give, hne, hsame, hget, hn1]; rfl

/-- No deadlock: as long as the consumer has not seen its channel closed, some
goroutine can take a step. -/
theorem chain_progress (s : State) (hi : Inv s) (hd : s.done = false) : ∃ a s', step s a = some s' := by
  rcases link_progress s hi s.nodes.length (le_refl _) with hstep | hup | ⟨i, y, s1, htake⟩
  · exact hstep
  · simp only [State.done] at hd
    rw [hd] at hup
    simp at hup
  · obtain ⟨-, -, -, hlen, -⟩ := take_todo s s1 _ i y htake
    refine ⟨Act.move s.nodes.length i 0, { s1 with received := s1.received ++ [y] }, ?_⟩
    simp only [step, hi.noPanic, htake, give, hlen]; rfl

/-- Every state of an execution can be extended to a complete execution. -/
theorem chain_completes (n : Nat) (s : State) (hi : Inv s) (hn : s.todo = n) :
    ∃ acts s', run step s acts = some s' ∧ s'.done = true := by
  induction n generalizing s with
  | zero =>
    cases hd : s.done with
    | true => exact ⟨[], s, rfl, hd⟩
    | false =>
      obtain ⟨a, s1, hs⟩ := chain_progress s hi hd
      have := chain_todo_step s s1 a hi hs
      omega
  | succ n ih =>
    cases hd : s.done with
    | true => exact ⟨[], s, rfl, hd⟩
    | false =>
      obtain ⟨a, s1, hs⟩ := chain_progress s hi hd
      have ht := chain_todo_step s s1 a hi hs
      obtain ⟨acts, s', hr, hc⟩ := ih s1 (step_spec s s1 a hi hs).1 (by omega)
      exact ⟨a :: acts, s', by simp [run, hs, hr], hc⟩

end Chain


namespace TeePkg

variable {T : Type}

theorem receivedOn_append (s s' : State T) (c c0 : Nat) (x : T)
    (hl : s'.log = s.log ++ [(c0, x)]) :
    s'.receivedOn c = s.receivedOn c ++ (if c0 = c then [x] else []) := by
  simp only [State.receivedOn, hl, List.filter_append, List.map_append]
  by_cases h : c0 = c
  · simp [h]
  · simp [h]

theorem receivedOn_same (s s' : State T) (c : Nat) (hl : s'.log = s.log) :
    s'.receivedOn c = s.receivedOn c := by
  simp only [State.receivedOn, hl]

theorem map_set_of_eq {β γ : Type} (f : β → γ) (l : List β) (i : Nat) (old new : β)
    (h : l[i]? = some old) (hf : f new = f old) : (l.set i new).map f = l.map f := by
  induction l generalizing i with
  | nil => rfl
  | cons b l ih =>
    cases i with
    | zero =>
      simp only [List.getElem?_cons_zero, Option.some.injEq] at h
      subst h
      simp [hf]
    | succ i =>
      simp only [List.getElem?_cons_succ] at h
      simp only [List.set_cons_succ, List.map_cons, ih i h]

theorem count_take_succ (sinks : List Nat) (k c c0 : Nat) (h : sinks[k]? = some c0) :
    (sinks.take (k + 1)).count c = (sinks.take k).count c + (if c0 = c then 1 else 0) := by
  have hlt : k < sinks.length := by
    by_contra hge
    rw [List.getElem?_eq_none (by omega)] at h
    simp at h
  rw [List.take_succ, h]
  simp only [Option.toList, List.count_append, List.count_cons, List.count_nil]
  simp [beq_iff_eq]

theorem tee_inv_init (sinks : List Nat) (items : List T) : Inv sinks items (Tee items) := by
  refine ⟨rfl, by simp [Tee], rfl, by simp [Tee], ?_, rfl, by simp [Tee]⟩
  intro c
  simp [Tee, State.receivedOn]

theorem tee_inv_step (sinks : List Nat) (items : List T) (s s' : State T) (a : Act)
    (hi : Inv sinks items s) (h : step sinks s a = some s') : Inv sinks items s' := by
  obtain ⟨hdata, hsrc, hwg, hbound, hlogs, hphase, hnd⟩ := hi
  unfold step at h
  split at h
  · simp at h
  · split at h
    · -- read
      split at h
      · rename_i x xs hph hpend
        simp only [Option.some.injEq] at h
        subst h
        refine ⟨?_, ?_, ?_, ?_, ?_, ?_, hnd⟩
        · simp only [List.map_append, List.map_cons, List.map_nil, List.append_assoc,
            List.singleton_append]
          rw [← hdata, hpend]
        · intro hc
          have := hsrc hc
          simp [hpend] at this
        · simp only [List.map_append, List.sum_append, List.map_cons, List.map_nil,
            List.sum_cons, List.sum_nil, Delivery.live]
          simp only [Bool.false_eq_true, ↓reduceIte]
          omega
        · intro g hg
          rcases List.mem_append.1 hg with h1 | h1
          · exact hbound g h1
          · simp only [List.mem_singleton] at h1
            subst h1
            simp
        · intro c
          simp only [List.map_append, List.sum_append, List.map_cons, List.map_nil,
            List.sum_cons, List.sum_nil, Delivery.sent, List.take_zero, List.count_nil,
            Multiset.replicate_zero, add_zero]
          exact hlogs c
        · simp only [PhaseOk, hph] at hphase ⊢
          exact hphase
      · simp at h
    · -- closeSrc
      split at h
      · rename_i hpend hc
        simp only [Option.some.injEq] at h
        subst h
        refine ⟨hdata, fun _ => hpend, hwg, hbound, hlogs, ?_, hnd⟩
        simp only [PhaseOk] at hphase ⊢
        split <;> rename_i hph <;> simp only [hph] at hphase <;> simp_all
      · simp at h
    · -- eof
      split at h
      · rename_i hph hc
        simp only [Option.some.injEq] at h
        subst h
        refine ⟨hdata, hsrc, hwg, hbound, hlogs, ?_, hnd⟩
        simp only [PhaseOk, hph] at hphase ⊢
        exact ⟨hphase, hc⟩
      · simp at h
    · -- deliver
      rename_i g
      split at h
      · rename_i x k hget
        split at h
        · rename_i c0 hsink
          split at h
          · simp only [Option.some.injEq] at h
            subst h
            exact ⟨hdata, hsrc, hwg, hbound, hlogs, hphase, hnd⟩
          · simp only [Option.some.injEq] at h
            subst h
            have hm := List.getElem?_mem hget
            have hlt : k < sinks.length := by
              by_contra hge
              rw [List.getElem?_eq_none (by omega)] at hsink
              simp at hsink
            refine ⟨?_, hsrc, ?_, ?_, ?_, ?_, hnd⟩
            · simp only
              rw [map_set_of_eq (fun g : Delivery T => g.data) s.deliveries g _
                { data := x, next := k + 1, returned := false } hget rfl]
              exact hdata
            · have := sum_map_set Delivery.live s.deliveries g _
                { data := x, next := k + 1, returned := false } hget
              simp only [Delivery.live, add_left_inj] at this
              simp only
              rw [hwg]
              exact this.symm
            · exact forall_mem_set _ _ _ _ hbound (by simp; omega)
            · intro c
              have := sum_map_set (Delivery.sent sinks c) s.deliveries g _
                { data := x, next := k + 1, returned := false } hget
              simp only [Delivery.sent] at this
              rw [count_take_succ sinks k c c0 hsink] at this
              rw [receivedOn_append s _ c c0 x rfl]
              by_cases hc : c0 = c
              · simp only [hc, ↓reduceIte, Multiset.replicate_succ] at this ⊢
                rw [← Multiset.coe_add, hlogs c, Multiset.coe_singleton]
                rw [← Multiset.singleton_add, ← add_assoc] at this
                exact (add_right_cancel this).symm
              · simp only [hc, ↓reduceIte, add_zero, List.append_nil, add_left_inj] at this ⊢
                rw [hlogs c]
                exact this.symm
            · simp only [PhaseOk] at hphase ⊢
              exact hphase
        · simp at h
      · simp at h
    · -- done
      rename_i g
      split at h
      · rename_i x k hget
        split at h
        · simp at h
        · rename_i hsink
          split at h
          · simp only [Option.some.injEq] at h
            subst h
            exact ⟨hdata, hsrc, hwg, hbound, hlogs, hphase, hnd⟩
          · rename_i hwg0
            simp only [Option.some.injEq] at h
            subst h
            have hm := List.getElem?_mem hget
            have hk : k = sinks.length := by
              have h1 := (hbound _ hm).1
              have h2 : ¬ k < sinks.length := by
                intro hlt
                rw [List.getElem?_eq_getElem hlt] at hsink
                simp at hsink
              simp only at h1
              omega
            have hl := sum_map_set Delivery.live s.deliveries g _
                { data := x, next := k, returned := true } hget
            simp only [Delivery.live, Bool.false_eq_true, ↓reduceIte, add_zero] at hl
            refine ⟨?_, hsrc, ?_, ?_, ?_, ?_, hnd⟩
            · simp only
              rw [map_set_of_eq (fun g : Delivery T => g.data) s.deliveries g _
                { data := x, next := k, returned := true } hget rfl]
              exact hdata
            · simp only [Delivery.live]
              omega
            · exact forall_mem_set _ _ _ _ hbound (by simp [hk])
            · intro c
              simp only
              rw [map_set_of_eq (Delivery.sent sinks c) s.deliveries g _
                { data := x, next := k, returned := true } hget rfl]
              exact hlogs c
            · simp only [PhaseOk] at hphase ⊢
              split <;> rename_i hph <;> simp only [hph] at hphase
              · exact hphase
              · exact hphase
              · obtain ⟨h1, h2, h3, h4⟩ := hphase
                exact absurd h4 hwg0
              · exact absurd hphase.2.2 hwg0
      · simp at h
    · -- wait
      split at h
      · rename_i hph
        split at h
        · rename_i hwg0
          simp only [Option.some.injEq] at h
          subst h
          refine ⟨hdata, hsrc, hwg, hbound, hlogs, ?_, hnd⟩
          simp only [PhaseOk, hph] at hphase ⊢
          exact ⟨by simp [hphase.1], by omega, hphase.2, hwg0⟩
        · simp at h
      · simp at h
    · -- close
      split at h
      · rename_i k hph
        simp only [PhaseOk, hph] at hphase
        obtain ⟨h1, h2, h3, h4⟩ := hphase
        split at h
        · rename_i c hsink
          split at h
          · simp only [Option.some.injEq] at h
            subst h
            refine ⟨hdata, hsrc, hwg, hbound, hlogs, ?_, hnd⟩
            simp only [PhaseOk, hph]
            exact ⟨h1, h2, h3, h4⟩
          · rename_i hnot
            simp only [Option.some.injEq] at h
            subst h
            have hlt : k < sinks.length := by
              by_contra hge
              rw [List.getElem?_eq_none (by omega)] at hsink
              simp at hsink
            refine ⟨hdata, hsrc, hwg, hbound, hlogs, ?_, ?_⟩
            · simp only [PhaseOk]
              refine ⟨?_, by omega, h3, h4⟩
              rw [List.take_succ, hsink, h1]
              rfl
            · simp only
              rw [List.nodup_append]
              refine ⟨hnd, List.nodup_singleton c, ?_⟩
              intro a ha hb
              simp only [List.mem_singleton] at hb
              subst hb
              exact hnot ha
        · rename_i hsink
          simp only [Option.some.injEq] at h
          subst h
          refine ⟨hdata, hsrc, hwg, hbound, hlogs, ?_, hnd⟩
          simp only [PhaseOk]
          refine ⟨?_, h3, h4⟩
          have : sinks.length ≤ k := by
            by_contra hlt
            rw [List.getElem?_eq_getElem (by omega)] at hsink
            simp at hsink
          rw [h1, List.take_of_length_le this]
      · simp at h

/-- With pairwise distinct sinks no step panics. -/
theorem no_panic_step (sinks : List Nat) (items : List T) (hs : sinks.Nodup) (s s' : State T)
    (a : Act) (hi : Inv sinks items s) (h : step sinks s a = some s') : s'.panicked = false := by
  obtain ⟨hdata, hsrc, hwg, hbound, hlogs, hphase, hnd⟩ := hi
  have live_pos : ∀ (g : Nat) (x : T) (k : Nat),
      s.deliveries[g]? = some { data := x, next := k, returned := false } → s.wg ≠ 0 := by
    intro g x k hget
    have := le_sum_map_of_mem Delivery.live _ _ (List.getElem?_mem hget)
    simp only [Delivery.live, Bool.false_eq_true, ↓reduceIte] at this
    omega
  unfold step at h
  split at h
  · simp at h
  · rename_i hp
    simp only [Bool.not_eq_true] at hp
    split at h
    · split at h
      · simp only [Option.some.injEq] at h; subst h; exact hp
      · simp at h
    · split at h
      · simp only [Option.some.injEq] at h; subst h; exact hp
      · simp at h
    · split at h
      · simp only [Option.some.injEq] at h; subst h; exact hp
      · simp at h
    · rename_i g
      split at h
      · rename_i x k hget
        split at h
        · rename_i c hsink
          split at h
          · rename_i hmem
            exfalso
            have hne := live_pos g x k hget
            simp only [PhaseOk] at hphase
            split at hphase
            · rw [hphase] at hmem; simp at hmem
            · rw [hphase.1] at hmem; simp at hmem
            · exact hne hphase.2.2.2
            · exact hne hphase.2.2
          · simp only [Option.some.injEq] at h; subst h; exact hp
        · simp at h
      · simp at h
    · rename_i g
      split at h
      · rename_i x k hget
        split at h
        · simp at h
        · split at h
          · rename_i h0
            exact absurd h0 (live_pos g x k hget)
          · simp only [Option.some.injEq] at h; subst h; exact hp
      · simp at h
    · split at h
      · split at h
        · simp only [Option.some.injEq] at h; subst h; exact hp
        · simp at h
      · simp at h
    · split at h
      · rename_i k hph
        simp only [PhaseOk, hph] at hphase
        split at h
        · rename_i c hsink
          split at h
          · rename_i hmem
            exfalso
            rw [hphase.1] at hmem
            have hlt : k < sinks.length := by
              by_contra hge
              rw [List.getElem?_eq_none (by omega)] at hsink
              simp at hsink
            have hsplit : sinks = sinks.take k ++ c :: sinks.drop (k + 1) := by
              rw [List.getElem?_eq_getElem hlt] at hsink
              simp only [Option.some.injEq] at hsink
              rw [← hsink, ← List.drop_eq_getElem_cons hlt, List.take_append_drop]
            rw [hsplit] at hs
            have := (List.nodup_append.1 hs).2.2
            exact this hmem (List.mem_cons_self _ _)
          · simp only [Option.some.injEq] at h; subst h; exact hp
        · simp only [Option.some.injEq] at h; subst h; exact hp
      · simp at h

end TeePkg

namespace TeePkg

variable {T : Type}

/-- Safety of `Tee` along a whole schedule. -/
theorem tee_run_inv (sinks : List Nat) (items : List T) (acts : List Act) (s : State T)
    (h : run (step sinks) (Tee items) acts = some s) : Inv sinks items s :=
  run_invariant (step sinks) (Inv sinks items) (fun s a s' => tee_inv_step sinks items s s' a)
    (Tee items) acts s (tee_inv_init sinks items) h

theorem run_no_panic (sinks : List Nat) (items : List T) (hs : sinks.Nodup) (acts : List Act)
    (s : State T) (h : run (step sinks) (Tee items) acts = some s) : s.panicked = false := by
  have := run_invariant (step sinks) (fun s => Inv sinks items s ∧ s.panicked = false)
    (fun s a s' hi hstep => ⟨tee_inv_step sinks items s s' a hi.1 hstep,
      no_panic_step sinks items hs s s' a hi.1 hstep⟩)
    (Tee items) acts s ⟨tee_inv_init sinks items, rfl⟩ h
  exact this.2

/-- With the counter at zero every delivery has gone through all the sinks. -/
theorem all_delivered (sinks : List Nat) (items : List T) (s : State T) (hi : Inv sinks items s)
    (h0 : s.wg = 0) : ∀ g ∈ s.deliveries, g.returned = true ∧ g.next = sinks.length := by
  intro g hg
  have h1 := le_sum_map_of_mem Delivery.live _ _ hg
  rw [← hi.wg_eq, h0] at h1
  have hr : g.returned = true := by
    cases hret : g.returned with
    | true => rfl
    | false => simp [Delivery.live, hret] at h1
  exact ⟨hr, (hi.bound g hg).2 hr⟩

theorem sum_singletons (l : List (Delivery T)) :
    (l.map fun g => ({g.data} : Multiset T)).sum = Multiset.ofList (l.map fun g => g.data) := by
  induction l with
  | nil => rfl
  | cons g l ih =>
    simp only [List.map_cons, List.sum_cons, ih, ← Multiset.cons_coe, Multiset.singleton_add]

/-- Once `Tee` has returned, the sinks are pairwise distinct and each has
received every source item exactly once. -/
theorem tee_received_of_returned (sinks : List Nat) (items : List T) (s : State T)
    (hi : Inv sinks items s) (hph : s.phase = Phase.returned) :
    sinks.Nodup ∧ ∀ c ∈ sinks, Multiset.ofList (s.receivedOn c) = Multiset.ofList items := by
  have hphase := hi.phase
  simp only [PhaseOk, hph] at hphase
  obtain ⟨hcl, hsc, hwg0⟩ := hphase
  have hnd : sinks.Nodup := hcl ▸ hi.nodup
  refine ⟨hnd, fun c hc => ?_⟩
  have hall := all_delivered sinks items s hi hwg0
  rw [hi.logs c]
  have hpend := hi.srcDrained hsc
  have hdata := hi.data
  rw [hpend, List.append_nil] at hdata
  rw [← hdata, ← sum_singletons]
  congr 1
  apply List.map_congr_left
  intro g hg
  simp only [Delivery.sent, (hall g hg).2, List.take_length, List.count_eq_one_of_mem hnd hc,
    Multiset.replicate_one]

theorem tee_todo_step (sinks : List Nat) (items : List T) (s s' : State T) (a : Act)
    (hi : Inv sinks items s) (h : step sinks s a = some s') (hp' : s'.panicked = false) :
    s'.todo sinks + 1 = s.todo sinks := by
  obtain ⟨hdata, hsrc, hwg, hbound, hlogs, hphase, hnd⟩ := hi
  unfold step at h
  split at h
  · simp at h
  · split at h
    · split at h
      · rename_i x xs hph hpend
        simp only [Option.some.injEq] at h
        subst h
        simp only [State.todo, hph, hpend, List.length_cons, List.map_append, List.sum_append,
          List.map_cons, List.map_nil, List.sum_cons, List.sum_nil, Delivery.live,
          Bool.false_eq_true, ↓reduceIte, Nat.sub_zero, Nat.succ_mul]
        omega
      · simp at h
    · split at h
      · rename_i hpend hc
        simp only [Option.some.injEq] at h
        subst h
        simp only [State.todo, hc, Bool.false_eq_true, ↓reduceIte]
        omega
      · simp at h
    · split at h
      · rename_i hph hc
        simp only [Option.some.injEq] at h
        subst h
        simp only [State.todo, hph]
        omega
      · simp at h
    · rename_i g
      split at h
      · rename_i x k hget
        split at h
        · rename_i c0 hsink
          split at h
          · simp only [Option.some.injEq] at h
            subst h
            simp at hp'
          · simp only [Option.some.injEq] at h
            subst h
            have hlt : k < sinks.length := by
              by_contra hge
              rw [List.getElem?_eq_none (by omega)] at hsink
              simp at hsink
            have := sum_map_set (fun g : Delivery T => (sinks.length - g.next) + g.live)
              s.deliveries g _ { data := x, next := k + 1, returned := false } hget
            have e1 : Delivery.live ({ data := x, next := k + 1, returned := false } : Delivery T)
              = 1 := rfl
            have e2 : Delivery.live ({ data := x, next := k, returned := false } : Delivery T)
              = 1 := rfl
            beta_reduce at this
            simp only [e1, e2] at this
            simp only [State.todo]
            omega
        · simp at h
      · simp at h
    · rename_i g
      split at h
      · rename_i x k hget
        split at h
        · simp at h
        · split at h
          · simp only [Option.some.injEq] at h
            subst h
            simp at hp'
          · simp only [Option.some.injEq] at h
            subst h
            have := sum_map_set (fun g : Delivery T => (sinks.length - g.next) + g.live)
              s.deliveries g _ { data := x, next := k, returned := true } hget
            have e1 : Delivery.live ({ data := x, next := k, returned := true } : Delivery T)
              = 0 := rfl
            have e2 : Delivery.live ({ data := x, next := k, returned := false } : Delivery T)
              = 1 := rfl
            beta_reduce at this
            simp only [e1, e2] at this
            simp only [State.todo]
            omega
      · simp at h
    · split at h
      · rename_i hph
        split at h
        · simp only [Option.some.injEq] at h
          subst h
          simp only [State.todo, hph]
          omega
        · simp at h
      · simp at h
    · split at h
      · rename_i k hph
        simp only [PhaseOk, hph] at hphase
        split at h
        · rename_i c hsink
          have hlt : k < sinks.length := by
            by_contra hge
            rw [List.getElem?_eq_none (by omega)] at hsink
            simp at hsink
          split at h
          · simp only [Option.some.injEq] at h
            subst h
            simp at hp'
          · simp only [Option.some.injEq] at h
            subst h
            simp only [State.todo, hph]
            have e : sinks.length - (k + 1) + 1 = sinks.length - k := by omega
            rw [e]
            rfl
        · simp only [Option.some.injEq] at h
          subst h
          simp only [State.todo, hph]
          rename_i hsink
          have : sinks.length ≤ k := by
            by_contra hlt
            rw [List.getElem?_eq_getElem (by omega)] at hsink
            simp at hsink
          generalize s.pending.length * (sinks.length + 2) = A
          omega
      · simp at h

/-- No deadlock: until `Tee` has returned some goroutine can take a step. -/
theorem tee_progress (sinks : List Nat) (items : List T) (s : State T) (hi : Inv sinks items s)
    (hp : s.panicked = false) (hph : s.phase ≠ Phase.returned) :
    ∃ a s', step sinks s a = some s' := by
  cases hphase : s.phase with
  | returned => exact absurd hphase hph
  | reading =>
    cases hpend : s.pending with
    | cons x xs => exact ⟨Act.read, _, by simp only [step, hp, hphase, hpend]; rfl⟩
    | nil =>
      cases hc : s.srcClosed with
      | false => exact ⟨Act.closeSrc, _, by simp only [step, hp, hpend, hc]; rfl⟩
      | true => exact ⟨Act.eof, _, by simp only [step, hp, hphase, hc]; rfl⟩
  | waiting =>
    by_cases h0 : s.wg = 0
    · exact ⟨Act.wait, { s with phase := Phase.closing 0 }, by simp [step, hp, hphase, h0]⟩
    · rw [hi.wg_eq] at h0
      obtain ⟨g, d, hget, hlive⟩ := exists_live _ _ h0
      obtain ⟨x, k, r⟩ := d
      cases r with
      | true => simp [Delivery.live] at hlive
      | false =>
        cases hsink : sinks[k]? with
        | some c =>
          by_cases hmem : c ∈ s.closed
          · exact ⟨Act.deliver g, { s with panicked := true },
              by simp [step, hp, hget, hsink, hmem]⟩
          · exact ⟨Act.deliver g, _, by simp only [step, hp, hget, hsink, hmem]; rfl⟩
        | none =>
          by_cases hw : s.wg = 0
          · exact ⟨Act.done g, { s with panicked := true }, by simp [step, hp, hget, hsink, hw]⟩
          · exact ⟨Act.done g, _, by simp only [step, hp, hget, hsink, hw]; rfl⟩
  | closing k =>
    cases hsink : sinks[k]? with
    | some c =>
      by_cases hmem : c ∈ s.closed
      · exact ⟨Act.close, { s with panicked := true }, by simp [step, hp, hphase, hsink, hmem]⟩
      · exact ⟨Act.close, _, by simp only [step, hp, hphase, hsink, hmem]; rfl⟩
    | none => exact ⟨Act.close, _, by simp only [step, hp, hphase, hsink]; rfl⟩

/-- With pairwise distinct sinks every state of an execution can be extended
to one in which `Tee` has returned. -/
theorem tee_completes (sinks : List Nat) (items : List T) (hs : sinks.Nodup) (n : Nat) (s : State T)
    (hi : Inv sinks items s) (hp : s.panicked = false) (hn : s.todo sinks = n) :
    ∃ acts s', run (step sinks) s acts = some s' ∧ s'.phase = Phase.returned
      ∧ s'.panicked = false := by
  induction n generalizing s with
  | zero =>
    by_cases hph : s.phase = Phase.returned
    · exact ⟨[], s, rfl, hph, hp⟩
    · obtain ⟨a, s1, hstep⟩ := tee_progress sinks items s hi hp hph
      have := tee_todo_step sinks items s s1 a hi hstep (no_panic_step sinks items hs s s1 a hi hstep)
      omega
  | succ n ih =>
    by_cases hph : s.phase = Phase.returned
    · exact ⟨[], s, rfl, hph, hp⟩
    · obtain ⟨a, s1, hstep⟩ := tee_progress sinks items s hi hp hph
      have hp1 := no_panic_step sinks items hs s s1 a hi hstep
      have ht := tee_todo_step sinks items s s1 a hi hstep hp1
      obtain ⟨acts, s', hr, hc⟩ := ih s1 (tee_inv_step sinks items s s1 a hi hstep) hp1 (by omega)
      exact ⟨a :: acts, s', by simp [run, hstep, hr], hc⟩

end TeePkg

namespace UrlFetcher

variable {Resp Err : Type}

theorem fetch_inv_init (get : String → Except Err Resp) (workerID : Int) (urls : List String) :
    Inv get workerID urls (fetchURLs urls) :=
  ⟨by simp [fetchURLs, Worker.held], by simp [fetchURLs], by simp [fetchURLs]⟩

/-- Steps taken while `ctx` is not cancelled keep the invariant. -/
theorem fetch_inv_step (get : String → Except Err Resp) (workerID : Int) (urls : List String)
    (s s' : State Resp Err) (a : Act) (hi : Inv get workerID urls s)
    (h : step get workerID s a = some s') (hc : s'.cancelled = false) :
    Inv get workerID urls s' ∧ s.cancelled = false := by
  obtain ⟨ho, hd, hr⟩ := hi
  cases a <;> simp only [step] at h <;> split at h <;>
    simp only [Option.some.injEq, reduceCtorEq] at h <;> subst h
  · rename_i u us hw hp hcl
    refine ⟨⟨?_, by simp [hcl], by simp⟩, hc⟩
    simp only [hw, hp, Worker.held, List.append_nil, List.map_cons] at ho ⊢
    rw [← ho]
    simp
  · rename_i hp hcl
    exact ⟨⟨ho, fun _ => hp, fun h => by simp⟩, hc⟩
  · rename_i hcan
    simp only at hc
    rw [hcan] at hc
    simp at hc
  · rename_i hw hcl
    exact ⟨⟨by simpa [hw, Worker.held] using ho, hd, fun _ => hcl⟩, hc⟩
  · rename_i hw hcan
    simp only at hc
    rw [hcan] at hc
    simp at hc
  · rename_i r hw hrd
    refine ⟨⟨?_, hd, by simp⟩, hc⟩
    simpa [hw, Worker.held] using ho
  · simp at hc
  · exact ⟨⟨ho, hd, hr⟩, hc⟩

/-- Along a schedule that ends with `ctx` not cancelled the invariant holds. -/
theorem fetch_run_inv (get : String → Except Err Resp) (workerID : Int) (urls : List String)
    (acts : List Act) (s0 s : State Resp Err) (hi : Inv get workerID urls s0)
    (h : run (step get workerID) s0 acts = some s) (hc : s.cancelled = false) :
    Inv get workerID urls s := by
  induction acts generalizing s0 with
  | nil =>
    simp only [run, Option.some.injEq] at h
    exact h ▸ hi
  | cons a as ih =>
    simp only [run] at h
    cases hs : step get workerID s0 a with
    | none => simp [hs] at h
    | some s1 =>
      rw [hs] at h
      simp only [Option.some_bind] at h
      have hmono : ∀ (bs : List Act) (t t' : State Resp Err),
          run (step get workerID) t bs = some t' → t'.cancelled = false → t.cancelled = false := by
        intro bs
        induction bs with
        | nil =>
          intro t t' ht htc
          simp only [run, Option.some.injEq] at ht
          exact ht ▸ htc
        | cons b bs ihb =>
          intro t t' ht htc
          simp only [run] at ht
          cases hb : step get workerID t b with
          | none => simp [hb] at ht
          | some t1 =>
            rw [hb] at ht
            simp only [Option.some_bind] at ht
            have h1 := ihb t1 t' ht htc
            cases b <;> simp only [step] at hb <;> split at hb <;>
              simp only [Option.some.injEq, reduceCtorEq] at hb <;> subst hb <;>
              first | exact h1 | (simp at h1)
      have hc1 := hmono as s1 s h hc
      exact ih s1 (fetch_inv_step get workerID urls s0 s1 a hi hs hc1).1 h

/-- Once the worker has returned without cancellation, the consumer holds one
result per URL, in input order. -/
theorem fetch_received_of_returned (get : String → Except Err Resp) (workerID : Int)
    (urls : List String) (s : State Resp Err) (hi : Inv get workerID urls s)
    (hw : s.worker = Worker.returned) :
    s.received = urls.map (fetchResult get workerID) := by
  have hp := hi.drained (hi.ret hw)
  have := hi.order
  simpa [hw, hp, Worker.held] using this

end UrlFetcher

namespace UrlFetcher

variable {Resp Err : Type}

/-- Without cancellation and with the consumer reading, a worker that has not
returned can take a step that brings it closer to its return. -/
theorem advance (get : String → Except Err Resp) (workerID : Int)
    (s : State Resp Err) (hc : s.cancelled = false)
    (hr : s.reading = true) (hw : s.worker ≠ Worker.returned) :
    ∃ a s', step get workerID s a = some s' ∧ s'.cancelled = false ∧ s'.reading = true
      ∧ s'.todo + 1 = s.todo := by
  cases hwk : s.worker with
  | returned => exact absurd hwk hw
  | sending r =>
    refine ⟨Act.send, { s with worker := Worker.selecting, received := s.received ++ [r] },
      by simp [step, hwk, hr], hc, hr, ?_⟩
    simp [State.todo, hwk]
  | selecting =>
    cases hcl : s.urlsClosed with
    | true =>
      refine ⟨Act.eof, { s with worker := Worker.returned }, by simp [step, hwk, hcl], hc, hr, ?_⟩
      simp [State.todo, hwk]
    | false =>
      cases hp : s.pending with
      | nil =>
        refine ⟨Act.closeUrls, { s with urlsClosed := true }, by simp [step, hp, hcl], hc, hr, ?_⟩
        simp only [State.todo, hp, hcl, hwk]
        simp
      | cons u us =>
        refine ⟨Act.recv,
          { s with pending := us, worker := Worker.sending (fetchResult get workerID u) },
          by simp [step, hwk, hp, hcl], hc, hr, ?_⟩
        simp only [State.todo, hp, hcl, hwk, List.length_cons]
        omega

/-- Without cancellation and with the consumer reading, every state of an
execution can be extended to one in which the worker has returned. -/
theorem fetch_completes (get : String → Except Err Resp) (workerID : Int) (urls : List String)
    (n : Nat) (s : State Resp Err) (hi : Inv get workerID urls s) (hc : s.cancelled = false)
    (hr : s.reading = true) (hn : s.todo = n) :
    ∃ acts s', run (step get workerID) s acts = some s' ∧ s'.worker = Worker.returned
      ∧ s'.cancelled = false ∧ s'.reading = true := by
  induction n generalizing s with
  | zero =>
    by_cases hw : s.worker = Worker.returned
    · exact ⟨[], s, rfl, hw, hc, hr⟩
    · obtain ⟨a, s1, -, -, -, ht⟩ := advance get workerID s hc hr hw
      omega
  | succ n ih =>
    by_cases hw : s.worker = Worker.returned
    · exact ⟨[], s, rfl, hw, hc, hr⟩
    · obtain ⟨a, s1, hs, hc1, hr1, ht⟩ := advance get workerID s hc hr hw
      obtain ⟨acts, s', hrun, hfin⟩ :=
        ih s1 (fetch_inv_step get workerID urls s s1 a hi hs hc1).1 hc1 hr1 (by omega)
      exact ⟨a :: acts, s', by simp [run, hs, hrun], hfin⟩

end UrlFetcher

/-! ## The claims -/

namespace FanIn

/-- C1, merge completeness.  For every list of input channels, each delivering
a finite sequence and then closed: every execution of `MergeChannels` can be
continued to one that closes `out`, and every execution that has closed `out`
has delivered on it exactly the multiset union of the inputs (so as many items
as the inputs hold), without panic.  The same holds for `fanIn`: its executions
can be continued to one that closes `out` and then have delivered the union.
And every execution of the call in `main`, on the three ticket streams, can be
continued to one that closes `out`, and has then delivered 30 items. -/
theorem merge_completeness {T : Type} (channels : List (List T)) :
    (∀ acts s, run step (MergeChannels channels) acts = some s →
        ∃ more s', run step s more = some s' ∧ s'.outClosed = true)
    ∧ (∀ acts s, run step (MergeChannels channels) acts = some s → s.outClosed = true →
        Multiset.ofList s.received = (channels.map Multiset.ofList).sum
          ∧ s.received.length = (channels.map List.length).sum ∧ s.panicked = false)
    ∧ (∀ (ctx : Ctx) (files : List (List File)) acts s,
        run step (FanOutPipeline.fanIn ctx files) acts = some s →
        (∃ more s', run step s more = some s' ∧ s'.outClosed = true)
        ∧ (s.outClosed = true →
            Multiset.ofList s.received = (files.map Multiset.ofList).sum
              ∧ s.received.length = (files.map List.length).sum ∧ s.panicked = false))
    ∧ (∀ draw1 draw2 draw3 acts s,
        run step (main draw1 draw2 draw3) acts = some s →
        (∃ more s', run step s more = some s' ∧ s'.outClosed = true)
        ∧ (s.outClosed = true → s.received.length = 30 ∧ s.panicked = false)) := by
  have live : ∀ {U : Type} (chs : List (List U)) acts s,
      run step (MergeChannels chs) acts = some s →
        ∃ more s', run step s more = some s' ∧ s'.outClosed = true := by
    intro U chs acts s hrun
    exact merge_completes chs _ s
      (run_invariant step (Inv chs) (fun s a s' => merge_inv_step chs s a s') _ acts s
        (merge_inv_init chs) hrun) rfl
  have key : ∀ {U : Type} (chs : List (List U)) acts s,
      run step (MergeChannels chs) acts = some s → s.outClosed = true →
        Multiset.ofList s.received = (chs.map Multiset.ofList).sum
          ∧ s.received.length = (chs.map List.length).sum ∧ s.panicked = false := by
    intro U chs acts s hrun hc
    have hi : Inv chs s :=
      run_invariant step (Inv chs) (fun s a s' => merge_inv_step chs s a s') _ acts s
        (merge_inv_init chs) hrun
    have hm := received_of_closed chs s hi hc
    refine ⟨hm, ?_, hi.noPanic⟩
    have := congrArg Multiset.card hm
    rw [Multiset.coe_card] at this
    rw [this]
    clear hm this hi hrun
    induction chs with
    | nil => rfl
    | cons c cs ih => simp [ih]
  refine ⟨live channels, key channels, ?_, ?_⟩
  · intro ctx files acts s hrun
    exact ⟨live files acts s hrun, key files acts s hrun⟩
  · intro d1 d2 d3 acts s hrun
    refine ⟨live _ acts s hrun, fun hc => ?_⟩
    have h := key _ acts s hrun hc
    refine ⟨?_, h.2.2⟩
    have := h.2.1
    simpa [generateTickets] using this

/-- The guarantees of C1 on the two channels `[1, 2]` and `[3]`, along the
schedule that delivers 3, 1, 2. -/
theorem merge_completeness_witness :
    Multiset.ofList [3, 1, 2] = ([[1, 2], [3]].map Multiset.ofList).sum
      ∧ [3, 1, 2].length = ([[1, 2], [3]].map List.length).sum ∧ false = false :=
  (merge_completeness [[1, 2], [3]]).2.1
    [Act.recv 0, Act.recv 1, Act.send 1, Act.send 0, Act.closeIn 1, Act.recv 0, Act.eof 1,
      Act.send 0, Act.closeIn 0, Act.eof 0, Act.closeOut]
    { ins := [{ pending := [], closed := true, relay := Relay.returned },
              { pending := [], closed := true, relay := Relay.returned }]
      wg := 0, finalizerDone := true, outClosed := true, received := [3, 1, 2],
      panicked := false }
    (by decide) rfl

/-- C7, no premature close.  In every state of every execution of
`MergeChannels`: no panic has occurred (a send on the closed `out`, a second
`close(out)` or a negative counter would be one); if `out` is closed then every
relay has returned, having seen its input closed and empty, and no goroutine
can take any further step; and if every relay has returned while `out` is
still open, `close(out)` is enabled and is the only enabled step. -/
theorem merge_no_premature_close {T : Type} (channels : List (List T)) (acts : List Act)
    (s : State T) (hrun : run step (MergeChannels channels) acts = some s) :
    s.panicked = false
    ∧ (s.outClosed = true →
        (∀ inp ∈ s.ins, inp.relay = Relay.returned ∧ inp.closed = true ∧ inp.pending = [])
        ∧ ∀ a, step s a = none)
    ∧ ((∀ inp ∈ s.ins, inp.relay = Relay.returned) → s.outClosed = false →
        (∃ s', step s Act.closeOut = some s' ∧ s'.outClosed = true ∧ s'.received = s.received)
        ∧ ∀ a, a ≠ Act.closeOut → step s a = none) := by
  have hi : Inv channels s :=
    run_invariant step (Inv channels) (fun s a s' => merge_inv_step channels s a s') _ acts s
      (merge_inv_init channels) hrun
  have hp := hi.noPanic
  have quiet : (∀ inp ∈ s.ins, inp.relay = Relay.returned) →
      ∀ a, a ≠ Act.closeOut → step s a = none := by
    intro hall a ha
    cases a with
    | closeOut => exact absurd rfl ha
    | recv i =>
      simp only [step, hp, Bool.false_eq_true, ↓reduceIte]
      split
      · rename_i heq
        have := hall _ (List.getElem?_mem heq)
        simp at this
      · rfl
    | closeIn i =>
      simp only [step, hp, Bool.false_eq_true, ↓reduceIte]
      split
      · rename_i r heq
        have hm := List.getElem?_mem heq
        have h1 := hall _ hm
        have h2 := (hi.locals _ hm).2 h1
        simp at h2
      · rfl
    | eof i =>
      simp only [step, hp, Bool.false_eq_true, ↓reduceIte]
      split
      · rename_i heq
        have := hall _ (List.getElem?_mem heq)
        simp at this
      · rfl
    | send i =>
      simp only [step, hp, Bool.false_eq_true, ↓reduceIte]
      split
      · rename_i heq
        have := hall _ (List.getElem?_mem heq)
        simp at this
      · rfl
  refine ⟨hp, ?_, ?_⟩
  · intro hc
    have hall := all_returned channels s hi (hi.closed_wg hc)
    refine ⟨hall, fun a => ?_⟩
    by_cases ha : a = Act.closeOut
    · subst ha
      have hf : s.finalizerDone = true := by rw [hi.fin_eq]; exact hc
      simp [step, hp, hf]
    · exact quiet (fun inp hm => (hall inp hm).1) a ha
  · intro hall hc
    refine ⟨⟨{ s with outClosed := true, finalizerDone := true }, ?_, rfl, rfl⟩, quiet hall⟩
    have hf : s.finalizerDone = false := by rw [hi.fin_eq]; exact hc
    have h0 : s.wg = 0 := by
      rw [hi.wg_eq]
      exact sum_eq_zero_of_forall _ _ fun inp hm => by simp [Input.live, hall inp hm]
    simp [step, hp, hf, h0, hc]

/-- C7 on the single input channel holding 5, after the relay has forwarded the
item and returned: `close(out)` is enabled and closes `out` with the item
delivered. -/
theorem merge_no_premature_close_witness :
    ∃ s', step ({ ins := [{ pending := [], closed := true, relay := Relay.returned }]
                  wg := 0, finalizerDone := false, outClosed := false, received := [5]
                  panicked := false } : State Nat) Act.closeOut = some s'
      ∧ s'.outClosed = true ∧ s'.received = [5] :=
  ((merge_no_premature_close [[5]] [Act.recv 0, Act.send 0, Act.closeIn 0, Act.eof 0]
    { ins := [{ pending := [], closed := true, relay := Relay.returned }]
      wg := 0, finalizerDone := false, outClosed := false, received := [5], panicked := false }
    (by decide)).2.2 (by decide) rfl).1

end FanIn

namespace FanOutPipeline

open Chain

theorem fanOut_fresh (ctx : Ctx) (step : Step) (workerCount : Int) :
    (fanOut ctx step workerCount).ok ∧ ¬ (fanOut ctx step workerCount).someReturned
      ∧ (fanOut ctx step workerCount).held = 0
      ∧ (fanOut ctx step workerCount).transform = step.transform := by
  refine ⟨⟨?_, rfl, by simp, ?_⟩, ?_, ?_, rfl⟩
  · simp [List.map_replicate, List.sum_replicate]
  · intro w hw
    rw [List.eq_of_mem_replicate hw]
    simp [Worker.ok]
  · rintro ⟨w, hw, hret⟩
    rw [List.eq_of_mem_replicate hw] at hret
    simp at hret
  · simp only [fanOut, Node.held]
    apply sum_eq_zero_of_forall
    intro w hw
    rw [List.eq_of_mem_replicate hw]
    simp [Worker.held]

theorem fanOut_hasReader (ctx : Ctx) (step : Step) (workerCount : Int) (hW : 1 ≤ workerCount) :
    (fanOut ctx step workerCount).hasReader := by
  simp only [fanOut, Node.hasReader, ne_eq, List.replicate_eq_nil_iff]
  omega

/-- C2, split conservation.  For every stage with per-item transform
`step.transform`, every worker count `workerCount ≥ 1` and every finite source
`files` closed after its last item: every execution of
`fanOut(ctx, step, in, workerCount)` can be continued to one that closes the
output; no execution panics; in every state the files delivered, the files
inside the workers and the transforms of the files still with the source add
up to the transformed source, each item being in one place; and every
execution in which the output has been closed has delivered exactly
`files.length` items whose multiset is that of `step.transform x` over the
source items. -/
theorem fanOut_conservation (ctx : Ctx) (step : Step) (workerCount : Int)
    (hW : 1 ≤ workerCount) (files : List File) :
    ∀ acts s, run Chain.step (start files [fanOut ctx step workerCount]) acts = some s →
        (∃ more s', run Chain.step s more = some s' ∧ s'.done = true)
        ∧ s.panicked = false
        ∧ Multiset.ofList s.received + inside s.nodes
            + (Multiset.ofList s.pending).map step.transform
          = (Multiset.ofList files).map step.transform
        ∧ (s.done = true →
            Multiset.ofList s.received = (Multiset.ofList files).map step.transform
              ∧ s.received.length = files.length) := by
  obtain ⟨hok, hnr, hheld, htr⟩ := fanOut_fresh ctx step workerCount
  have hr := fanOut_hasReader ctx step workerCount hW
  have hnodes : ∀ n ∈ [fanOut ctx step workerCount], n.ok ∧ n.hasReader ∧ ¬ n.someReturned := by
    intro n hn
    simp only [List.mem_singleton] at hn
    subst hn
    exact ⟨hok, hr, hnr⟩
  have hzero : ∀ n ∈ [fanOut ctx step workerCount], n.held = 0 := by
    intro n hn
    simp only [List.mem_singleton] at hn
    subst hn
    exact hheld
  intro acts s hrun
  obtain ⟨hi, htot, htrs⟩ := run_spec files _ hnodes hzero acts s hrun
  have hcomp : comp [step.transform] = step.transform := by
    funext x; rfl
  simp only [List.map_cons, List.map_nil, htr] at htot htrs
  rw [hcomp] at htot
  refine ⟨chain_completes _ s hi rfl, hi.noPanic, ?_, fun hd => ?_⟩
  · rw [← htot, State.total, htrs, hcomp]
  have hrec := received_of_done s hi hd
  rw [htot] at hrec
  refine ⟨hrec, ?_⟩
  have := congrArg Multiset.card hrec
  simpa using this

/-- C2 on two files, two workers and `Step1`: the second file overtakes the
first, and both arrive transformed once. -/
theorem fanOut_conservation_witness :
    Multiset.ofList [({ Name := "b", Data := "y-> Step1[b]" } : File),
        { Name := "a", Data := "x-> Step1[a]" }]
      = (Multiset.ofList [({ Name := "a", Data := "x" } : File), { Name := "b", Data := "y" }]).map
          Step1.transform
    ∧ [({ Name := "b", Data := "y-> Step1[b]" } : File),
        { Name := "a", Data := "x-> Step1[a]" }].length
      = [({ Name := "a", Data := "x" } : File), { Name := "b", Data := "y" }].length :=
  (fanOut_conservation false Step1 2 (by decide)
      [{ Name := "a", Data := "x" }, { Name := "b", Data := "y" }]
    [Act.move 0 0 0, Act.move 0 0 1, Act.inner 0 (Inner.sub 1), Act.move 1 1 0,
      Act.inner 0 (Inner.sub 0), Act.move 1 0 0, Act.closeSrc, Act.eof 0 0, Act.eof 0 1,
      Act.inner 0 (Inner.subClosed 0), Act.inner 0 (Inner.subClosed 1), Act.inner 0 Inner.closeOut]
    { pending := [], srcClosed := true
      nodes := [Node.fanOut Step1.transform
        [{ stage := Loop.returned, relay := Loop.returned },
         { stage := Loop.returned, relay := Loop.returned }] 0 true true]
      received := [{ Name := "b", Data := "y-> Step1[b]" }, { Name := "a", Data := "x-> Step1[a]" }]
      panicked := false }
    rfl).2.2.2 rfl

end FanOutPipeline

namespace Chain

/-- A pipeline fed one file: every execution can be continued to a complete
one, and whenever the consumer sees its channel closed it has received exactly
that file, taken through the stages in order. -/
theorem single_file (x : File) (nodes : List Node)
    (h : ∀ n ∈ nodes, n.ok ∧ n.hasReader ∧ ¬ n.someReturned) (h0 : ∀ n ∈ nodes, n.held = 0) :
    ∀ acts s, run step (start [x] nodes) acts = some s →
      (∃ more s', run step s more = some s' ∧ s'.done = true)
      ∧ (s.done = true → s.received = [comp (nodes.map Node.transform) x]) := by
  intro acts s hrun
  obtain ⟨hi, htot, -⟩ := run_spec [x] nodes h h0 acts s hrun
  refine ⟨chain_completes _ s hi rfl, fun hd => ?_⟩
  have hrec := received_of_done s hi hd
  rw [htot] at hrec
  simpa [Multiset.coe_eq_singleton] using hrec

end Chain

theorem foldl_append_singleton {β : Type} (l p : List β) :
    l.foldl (fun q b => q ++ [b]) p = p ++ l := by
  induction l generalizing p with
  | nil => simp
  | cons b l ih => simp [ih]

/-- C5, pipeline order preservation.  For every list of stages added in order
by `AddStage` to `NewPipeline()` and every single input file `x`: every
execution of `Execute` can be continued to one that closes the output, and
whenever the output is closed the consumer has received exactly one file, the
stages' transforms applied to `x` in the order the stages were added.  With `Stage1` to `Stage4` the file
`{Name: n, Data: d}` comes out with the data
`d ++ " -> Stage1 -> Stage2 -> Stage3 -> Stage4"`.  The same holds for the
fan-out pipeline with any positive `runtime.NumCPU()`, where `Step1` to `Step4`
append the tags `-> StepI[n]` in order. -/
theorem pipeline_order_preservation :
    (∀ (stages : List SeqPipeline.Stage) (ctx : Ctx) (x : File) acts s,
      run Chain.step
          (SeqPipeline.Execute (stages.foldl SeqPipeline.AddStage SeqPipeline.NewPipeline) ctx [x])
          acts = some s →
        (∃ more s', run Chain.step s more = some s' ∧ s'.done = true)
        ∧ (s.done = true →
            s.received = [stages.foldl (fun file stage => stage.transform file) x]))
    ∧ (∀ (ctx : Ctx) (n d : String) acts s,
        run Chain.step (SeqPipeline.Execute
          (SeqPipeline.AddStage (SeqPipeline.AddStage (SeqPipeline.AddStage
            (SeqPipeline.AddStage SeqPipeline.NewPipeline SeqPipeline.Stage1)
            SeqPipeline.Stage2) SeqPipeline.Stage3) SeqPipeline.Stage4)
          ctx [{ Name := n, Data := d }]) acts = some s → s.done = true →
        s.received = [{ Name := n, Data := d ++ " -> Stage1 -> Stage2 -> Stage3 -> Stage4" }])
    ∧ (∀ (steps : List FanOutPipeline.Step) (ctx : Ctx) (numCPU : Int), 1 ≤ numCPU →
      ∀ (x : File) acts s,
      run Chain.step
          (FanOutPipeline.Execute (steps.foldl FanOutPipeline.AddStep FanOutPipeline.NewPipeline)
            ctx numCPU [x]) acts = some s →
        (∃ more s', run Chain.step s more = some s' ∧ s'.done = true)
        ∧ (s.done = true → s.received = [steps.foldl (fun file st => st.transform file) x]))
    ∧ (∀ (ctx : Ctx) (numCPU : Int), 1 ≤ numCPU → ∀ (n d : String) acts s,
        run Chain.step (FanOutPipeline.Execute
          (FanOutPipeline.AddStep (FanOutPipeline.AddStep (FanOutPipeline.AddStep
            (FanOutPipeline.AddStep FanOutPipeline.NewPipeline FanOutPipeline.Step1)
            FanOutPipeline.Step2) FanOutPipeline.Step3) FanOutPipeline.Step4)
          ctx numCPU [{ Name := n, Data := d }]) acts = some s → s.done = true →
        s.received = [{ Name := n, Data := d ++ ("-> Step1[" ++ n ++ "]")
          ++ ("-> Step2[" ++ n ++ "]") ++ ("-> Step3[" ++ n ++ "]") ++ ("-> Step4[" ++ n ++ "]") }]) := by
  have seq : ∀ (p : SeqPipeline.Pipeline) (ctx : Ctx) (x : File) acts s,
      run Chain.step (SeqPipeline.Execute p ctx [x]) acts = some s →
        (∃ more s', run Chain.step s more = some s' ∧ s'.done = true)
        ∧ (s.done = true → s.received = [p.foldl (fun file stage => stage.transform file) x]) := by
    intro p ctx x
    have h1 : ∀ n ∈ p.map (fun stage => SeqPipeline.Stage.Execute stage ctx),
        n.ok ∧ n.hasReader ∧ ¬ n.someReturned := by
      intro n hn
      obtain ⟨st, -, rfl⟩ := List.mem_map.1 hn
      exact ⟨trivial, trivial, by simp [SeqPipeline.Stage.Execute, Chain.Node.someReturned]⟩
    have h2 : ∀ n ∈ p.map (fun stage => SeqPipeline.Stage.Execute stage ctx), n.held = 0 := by
      intro n hn
      obtain ⟨st, -, rfl⟩ := List.mem_map.1 hn
      rfl
    have := Chain.single_file x _ h1 h2
    have e : (p.map fun stage => SeqPipeline.Stage.Execute stage ctx).map Chain.Node.transform
        = p.map SeqPipeline.Stage.transform := by
      rw [List.map_map]; rfl
    rw [e, Chain.comp_eq_foldl] at this
    exact this
  have fan : ∀ (p : FanOutPipeline.Pipeline) (ctx : Ctx) (numCPU : Int), 1 ≤ numCPU →
      ∀ (x : File) acts s,
      run Chain.step (FanOutPipeline.Execute p ctx numCPU [x]) acts = some s →
        (∃ more s', run Chain.step s more = some s' ∧ s'.done = true)
        ∧ (s.done = true → s.received = [p.foldl (fun file st => st.transform file) x]) := by
    intro p ctx numCPU hcpu x
    have h1 : ∀ n ∈ p.map (fun st => FanOutPipeline.fanOut ctx st numCPU),
        n.ok ∧ n.hasReader ∧ ¬ n.someReturned := by
      intro n hn
      obtain ⟨st, -, rfl⟩ := List.mem_map.1 hn
      obtain ⟨hok, hnr, -, -⟩ := FanOutPipeline.fanOut_fresh ctx st numCPU
      exact ⟨hok, FanOutPipeline.fanOut_hasReader ctx st numCPU hcpu, hnr⟩
    have h2 : ∀ n ∈ p.map (fun st => FanOutPipeline.fanOut ctx st numCPU), n.held = 0 := by
      intro n hn
      obtain ⟨st, -, rfl⟩ := List.mem_map.1 hn
      exact (FanOutPipeline.fanOut_fresh ctx st numCPU).2.2.1
    have := Chain.single_file x _ h1 h2
    have e : (p.map fun st => FanOutPipeline.fanOut ctx st numCPU).map Chain.Node.transform
        = p.map FanOutPipeline.Step.transform := by
      rw [List.map_map]; rfl
    rw [e, Chain.comp_eq_foldl] at this
    exact this
  refine ⟨?_, ?_, ?_, ?_⟩
  · intro stages ctx x
    have e : stages.foldl SeqPipeline.AddStage SeqPipeline.NewPipeline = stages := by
      have := foldl_append_singleton stages ([] : List SeqPipeline.Stage)
      simpa [SeqPipeline.AddStage, SeqPipeline.NewPipeline] using this
    rw [e]
    exact seq stages ctx x
  · intro ctx n d acts s hrun hd
    have := (seq _ ctx _ acts s hrun).2 hd
    rw [this]
    simp only [SeqPipeline.AddStage, SeqPipeline.NewPipeline, List.nil_append, List.cons_append,
      List.foldl_cons, List.foldl_nil, SeqPipeline.Stage1, SeqPipeline.Stage2, SeqPipeline.Stage3,
      SeqPipeline.Stage4, String.append_assoc]
    rfl
  · intro steps ctx numCPU hcpu x
    have e : steps.foldl FanOutPipeline.AddStep FanOutPipeline.NewPipeline = steps := by
      have := foldl_append_singleton steps ([] : List FanOutPipeline.Step)
      simpa [FanOutPipeline.AddStep, FanOutPipeline.NewPipeline] using this
    rw [e]
    exact fan steps ctx numCPU hcpu x
  · intro ctx numCPU hcpu n d acts s hrun hd
    have := (fan _ ctx numCPU hcpu _ acts s hrun).2 hd
    rw [this]
    rfl

/-- C5 on the file `{Name: "file1", Data: "Data for file1"}` and the four stages of
pipeline/main.go, along the schedule that moves the file from stage to stage. -/
theorem pipeline_order_preservation_witness :
    [({ Name := "file1", Data := "Data for file1 -> Stage1 -> Stage2 -> Stage3 -> Stage4" } : File)]
      = [{ Name := "file1",
           Data := "Data for file1" ++ " -> Stage1 -> Stage2 -> Stage3 -> Stage4" }] :=
  pipeline_order_preservation.2.1 false "file1" "Data for file1"
    [Chain.Act.move 0 0 0, Chain.Act.move 1 0 0, Chain.Act.move 2 0 0, Chain.Act.move 3 0 0,
      Chain.Act.move 4 0 0, Chain.Act.closeSrc, Chain.Act.eof 0 0, Chain.Act.eof 1 0,
      Chain.Act.eof 2 0, Chain.Act.eof 3 0]
    { pending := [], srcClosed := true
      nodes := [Chain.Node.stage SeqPipeline.Stage1.transform Chain.Loop.returned,
        Chain.Node.stage SeqPipeline.Stage2.transform Chain.Loop.returned,
        Chain.Node.stage SeqPipeline.Stage3.transform Chain.Loop.returned,
        Chain.Node.stage SeqPipeline.Stage4.transform Chain.Loop.returned]
      received := [{ Name := "file1",
                     Data := "Data for file1 -> Stage1 -> Stage2 -> Stage3 -> Stage4" }]
      panicked := false }
    rfl rfl

namespace FanOutPipeline

open Chain

/-- C6 as the code has it.  For every `workerCount ≤ 0` the loop of `fanOut`
starts no worker: the call returns an output channel all the same, no execution
panics, none reads a file from the input or delivers one on the output, and
the finalizer can close the output at once. -/
theorem fanOut_nonpositive_workers (ctx : Ctx) (step : Step) (workerCount : Int)
    (hW : workerCount ≤ 0) (files : List File) :
    fanOut ctx step workerCount = Node.fanOut step.transform [] 0 false false
    ∧ (∃ s, run Chain.step (start files [fanOut ctx step workerCount])
          [Act.inner 0 Inner.closeOut] = some s ∧ s.done = true)
    ∧ ∀ acts s, run Chain.step (start files [fanOut ctx step workerCount]) acts = some s →
        s.panicked = false ∧ s.received = [] ∧ s.pending = files := by
  have e : fanOut ctx step workerCount = Node.fanOut step.transform [] 0 false false := by
    have : workerCount.toNat = 0 := by omega
    simp [fanOut, this]
  refine ⟨e, ?_, ?_⟩
  · rw [e]
    exact ⟨_, rfl, rfl⟩
  · intro acts s hrun
    rw [e] at hrun
    have := run_invariant Chain.step
      (fun s => s.panicked = false ∧ s.received = [] ∧ s.pending = files
        ∧ ∃ b, s.nodes = [Node.fanOut step.transform [] 0 b b])
      (fun s a s' hs hstep => by
        obtain ⟨hp, hr, hpend, b, hn⟩ := hs
        cases a with
        | closeSrc =>
          simp only [Chain.step, hp, Bool.false_eq_true, ↓reduceIte] at hstep
          split at hstep
          · simp only [Option.some.injEq] at hstep
            subst hstep
            exact ⟨rfl, hr, hpend, b, hn⟩
          · simp at hstep
        | move j i k =>
          exfalso
          simp only [Chain.step, hp, Bool.false_eq_true, ↓reduceIte] at hstep
          cases j with
          | zero =>
            simp only [take] at hstep
            split at hstep
            · rename_i y s1 htake
              split at htake
              · simp only [Res.ok.injEq, Prod.mk.injEq] at htake
                obtain ⟨rfl, rfl⟩ := htake
                simp [give, hn, Node.accept] at hstep
              · simp at htake
            · rename_i htake
              split at htake <;> simp at htake
            · simp at hstep
          | succ j =>
            cases j with
            | zero => simp [take, hn, Node.offer] at hstep
            | succ j => simp [take, hn] at hstep
        | eof j k =>
          exfalso
          simp only [Chain.step, hp, Bool.false_eq_true, ↓reduceIte] at hstep
          cases j with
          | zero => simp [hn, Node.inputClosed] at hstep
          | succ j => simp [hn] at hstep
        | inner j a =>
          simp only [Chain.step, hp, Bool.false_eq_true, ↓reduceIte] at hstep
          cases j with
          | zero =>
            cases a with
            | sub k => simp [hn, Node.inner] at hstep
            | subClosed k => simp [hn, Node.inner] at hstep
            | closeOut =>
              cases b with
              | false =>
                simp only [hn, List.getElem?_cons_zero, Node.inner, and_self, ↓reduceIte,
                  Bool.false_eq_true, Option.some.injEq] at hstep
                subst hstep
                exact ⟨rfl, hr, hpend, true, by simp⟩
              | true => simp [hn, Node.inner] at hstep
          | succ j => simp [hn] at hstep)
      _ acts s ⟨rfl, rfl, rfl, false, rfl⟩ hrun
    exact ⟨this.1, this.2.1, this.2.2.1⟩

/-- C6 as the code has it, on one file and a worker count of -3. -/
theorem fanOut_nonpositive_workers_witness :
    ∃ s, run Chain.step (start [{ Name := "a", Data := "x" }] [fanOut false Step1 (-3)])
        [Act.inner 0 Inner.closeOut] = some s ∧ s.done = true :=
  (fanOut_nonpositive_workers false Step1 (-3) (by decide) [{ Name := "a", Data := "x" }]).2.1

/-- C6 fails on the code: `fanOut` called with `workerCount = 0` on a source
holding one file does not fail; after the single step `close(out)` of the
finalizer the output is closed, nothing has panicked, nothing was delivered and
the file is still with the source. -/
theorem fanOut_zero_workers_counterexample :
    (run Chain.step (start [{ Name := "a", Data := "x" }] [fanOut false Step1 0])
        [Act.inner 0 Inner.closeOut]).map (fun s => (s.done, s.panicked, s.received, s.pending))
      = some (true, false, [], [{ Name := "a", Data := "x" }]) := by
  decide

end FanOutPipeline

namespace TeePkg

/-- C3, exactly-once delivery.  For every list of pairwise distinct sinks and
every finite source closed after its last item: every execution of `Tee` can
be continued to one in which `Tee` returns without panic, and in every
execution in which `Tee` has returned each sink has received a multiset of
items equal to that of the source. -/
theorem tee_exactly_once {T : Type} (sinks : List Nat) (hs : sinks.Nodup) (items : List T)
    (acts : List Act) (s : State T) (hrun : run (step sinks) (Tee items) acts = some s) :
    (∃ more s', run (step sinks) s more = some s' ∧ s'.phase = Phase.returned
        ∧ s'.panicked = false)
    ∧ (s.phase = Phase.returned →
        ∀ c ∈ sinks, Multiset.ofList (s.receivedOn c) = Multiset.ofList items) :=
  ⟨tee_completes sinks items hs _ s (tee_run_inv sinks items acts s hrun)
      (run_no_panic sinks items hs acts s hrun) rfl,
    fun hph =>
      (tee_received_of_returned sinks items s (tee_run_inv sinks items acts s hrun) hph).2⟩

/-- C3 on the source 1, 2 and the two sinks 0 and 1, along a schedule in which
item 2 reaches sink 0 first: sink 0 has received 2, 1. -/
theorem tee_exactly_once_witness :
    Multiset.ofList [2, 1] = Multiset.ofList [1, 2] :=
  (tee_exactly_once [0, 1] (by decide) [1, 2]
    [Act.read, Act.read, Act.deliver 1, Act.deliver 0, Act.deliver 0, Act.deliver 1,
      Act.closeSrc, Act.eof, Act.done 0, Act.done 1, Act.wait, Act.close, Act.close, Act.close]
    { pending := [], srcClosed := true, phase := Phase.returned
      deliveries := [{ data := 1, next := 2, returned := true },
                     { data := 2, next := 2, returned := true }]
      wg := 0, log := [(0, 2), (0, 1), (1, 1), (1, 2)], closed := [0, 1], panicked := false }
    (by decide)).2 rfl 0 (by decide)

/-- C4 fails on the code: with the five orders and the three sinks of `main`
there is a complete execution of `Tee`, without panic, after which every sink
has received the orders as 2, 1, 3, 4, 5. -/
theorem tee_order_counterexample :
    (run (step [0, 1, 2]) (Tee (orders fun _ => 1)) overtaking).map
        (fun s => (s.phase, s.panicked, (s.receivedOn 0).map (fun o => o.ID),
          (s.receivedOn 1).map (fun o => o.ID), (s.receivedOn 2).map (fun o => o.ID)))
      = some (Phase.returned, false, [2, 1, 3, 4, 5], [2, 1, 3, 4, 5], [2, 1, 3, 4, 5]) := by
  decide

/-- C4 as the code has it.  For every list of sinks and every finite source of
`K` items closed after its last item: in every execution in which `Tee` has
returned, the sequence each sink has received is a permutation of the source
sequence, of `K` items, and equals it when `K ≤ 1`. -/
theorem tee_per_sink_permutation {T : Type} (sinks : List Nat) (items : List T) (acts : List Act)
    (s : State T) (hrun : run (step sinks) (Tee items) acts = some s)
    (hret : s.phase = Phase.returned) :
    ∀ c ∈ sinks, (s.receivedOn c).Perm items ∧ (s.receivedOn c).length = items.length
      ∧ (items.length ≤ 1 → s.receivedOn c = items) := by
  intro c hc
  have hm := (tee_received_of_returned sinks items s (tee_run_inv sinks items acts s hrun) hret).2 c hc
  have hperm : (s.receivedOn c).Perm items := Multiset.coe_eq_coe.1 hm
  refine ⟨hperm, hperm.length_eq, fun hk => ?_⟩
  match hitems : items, hk with
  | [], _ => exact List.Perm.eq_nil hperm
  | [x], _ => exact List.perm_singleton.1 hperm

/-- C4 as the code has it, on the source 1, 2 and the sinks 0 and 1: sink 0
has received 2, 1, a permutation of the source. -/
theorem tee_per_sink_permutation_witness :
    ([2, 1] : List Nat).Perm [1, 2] ∧ ([2, 1] : List Nat).length = [1, 2].length
      ∧ ([1, 2].length ≤ 1 → [2, 1] = [1, 2]) :=
  tee_per_sink_permutation [0, 1] [1, 2]
    [Act.read, Act.read, Act.deliver 1, Act.deliver 0, Act.deliver 0, Act.deliver 1,
      Act.closeSrc, Act.eof, Act.done 0, Act.done 1, Act.wait, Act.close, Act.close, Act.close]
    { pending := [], srcClosed := true, phase := Phase.returned
      deliveries := [{ data := 1, next := 2, returned := true },
                     { data := 2, next := 2, returned := true }]
      wg := 0, log := [(0, 2), (0, 1), (1, 1), (1, 2)], closed := [0, 1], panicked := false }
    (by decide) rfl 0 (by decide)

/-- C10 fails on the code: with the same channel passed twice as a sink and a
source holding one item, `Tee` sends the item twice on the channel, closes the
channel, and panics on the second `close`. -/
theorem tee_duplicate_sink_counterexample :
    (run (step [7, 7]) (Tee [1])
        [Act.read, Act.deliver 0, Act.deliver 0, Act.closeSrc, Act.eof, Act.done 0, Act.wait,
          Act.close, Act.close]).map (fun s => (s.panicked, s.closed, s.receivedOn 7))
      = some (true, [7], [1, 1]) := by
  decide

/-- C10 as the code has it.  For every list of sinks, of any length, with or
without a channel passed more than once, and every finite source closed after
its last item, in every state of every execution: no channel has been closed
twice and only sinks have been closed; once a sink is closed the source is
closed and exhausted, every delivery goroutine has returned and none can send
again; when `Tee` has returned the closed channels are exactly the sinks, each
closed once, and the source is drained; with no sink nothing is ever closed or
sent.  When the sinks are pairwise distinct, moreover, no panic has occurred
and the execution can be continued to one in which `Tee` returns. -/
theorem tee_close_invariant {T : Type} (sinks : List Nat) (items : List T) (acts : List Act)
    (s : State T) (hrun : run (step sinks) (Tee items) acts = some s) :
    s.closed.Nodup ∧ (∀ c ∈ s.closed, c ∈ sinks)
    ∧ (s.closed ≠ [] →
        s.srcClosed = true ∧ s.pending = [] ∧ (∀ g ∈ s.deliveries, g.returned = true)
          ∧ ∀ g, step sinks s (Act.deliver g) = none)
    ∧ (s.phase = Phase.returned → s.closed = sinks ∧ s.pending = [])
    ∧ (sinks = [] → s.closed = [] ∧ s.log = [])
    ∧ (sinks.Nodup →
        s.panicked = false
        ∧ ∃ more s', run (step sinks) s more = some s' ∧ s'.phase = Phase.returned
            ∧ s'.panicked = false) := by
  have hi := tee_run_inv sinks items acts s hrun
  have hphase := hi.phase
  have hsub : ∀ c ∈ s.closed, c ∈ sinks := by
    intro c hc
    simp only [PhaseOk] at hphase
    split at hphase
    · rw [hphase] at hc; simp at hc
    · rw [hphase.1] at hc; simp at hc
    · rw [hphase.1] at hc; exact List.mem_of_mem_take hc
    · rw [hphase.1] at hc; exact hc
  refine ⟨hi.nodup, hsub, ?_, ?_, ?_, ?_⟩
  · intro hne
    have h3 : s.srcClosed = true ∧ s.wg = 0 := by
      simp only [PhaseOk] at hphase
      split at hphase
      · exact absurd hphase hne
      · exact absurd hphase.1 hne
      · exact ⟨hphase.2.2.1, hphase.2.2.2⟩
      · exact ⟨hphase.2.1, hphase.2.2⟩
    have hall := all_delivered sinks items s hi h3.2
    refine ⟨h3.1, hi.srcDrained h3.1, fun g hg => (hall g hg).1, fun g => ?_⟩
    cases hp : s.panicked with
    | true => simp [step, hp]
    | false =>
      simp only [step, hp, Bool.false_eq_true, ↓reduceIte]
      split
      · rename_i heq
        have := (hall _ (List.getElem?_mem heq)).1
        simp at this
      · rfl
  · intro hret
    simp only [PhaseOk, hret] at hphase
    exact ⟨hphase.1, hi.srcDrained hphase.2.1⟩
  · intro hnil
    subst hnil
    have hcl : s.closed = [] := by
      cases hc : s.closed with
      | nil => rfl
      | cons c cs =>
        have := hsub c (by rw [hc]; exact List.mem_cons_self _ _)
        simp at this
    refine ⟨hcl, ?_⟩
    have hlog : ∀ c, s.receivedOn c = [] := by
      intro c
      have := hi.logs c
      rw [sum_eq_zero_of_forall _ _ (fun g _ => by simp [Delivery.sent])] at this
      exact (Multiset.coe_eq_zero _).1 this
    cases hl : s.log with
    | nil => rfl
    | cons e l =>
      have := hlog e.1
      simp [State.receivedOn, hl] at this
  · intro hs
    have hp := run_no_panic sinks items hs acts s hrun
    exact ⟨hp, tee_completes sinks items hs _ s hi hp rfl⟩

/-- C10 as the code has it, on the source holding 1 and the channel 7 passed
twice as a sink: after the first `close` the source is exhausted, the delivery
has returned and no delivery can send again. -/
theorem tee_close_invariant_witness :
    true = true ∧ ([] : List Nat) = []
      ∧ (∀ g ∈ [({ data := 1, next := 2, returned := true } : Delivery Nat)], g.returned = true)
      ∧ ∀ g, step [7, 7]
          ({ pending := [], srcClosed := true, phase := Phase.closing 1
             deliveries := [{ data := 1, next := 2, returned := true }]
             wg := 0, log := [(7, 1), (7, 1)], closed := [7],
             panicked := false } : State Nat) (Act.deliver g) = none :=
  (tee_close_invariant [7, 7] [1]
    [Act.read, Act.deliver 0, Act.deliver 0, Act.closeSrc, Act.eof, Act.done 0, Act.wait,
      Act.close]
    { pending := [], srcClosed := true, phase := Phase.closing 1
      deliveries := [{ data := 1, next := 2, returned := true }]
      wg := 0, log := [(7, 1), (7, 1)], closed := [7], panicked := false }
    (by decide)).2.2.1 (by decide)

end TeePkg

namespace UrlFetcher

/-- C9, per-item failure as a stream item.  For every `get` standing for
`http.Get`, every worker id and every finite list of URLs: every execution
without cancellation whose consumer is still reading can be continued, without
cancellation, to one in which the worker returns; in every state reached
without cancellation the results received so far are a prefix of the results
of the URLs in input order, and once the worker has returned (its output
closed) they are all of them, one per URL; the result of a URL has a non-nil
`err` exactly when its fetch failed, and otherwise carries the URL and the
response with a nil `err`. -/
theorem fetchURLs_results_in_order {Resp Err : Type} (get : String → Except Err Resp)
    (workerID : Int) (urls : List String) :
    (∀ acts s, run (step get workerID) (fetchURLs urls) acts = some s → s.cancelled = false →
        (s.reading = true → ∃ more s', run (step get workerID) s more = some s'
          ∧ s'.worker = Worker.returned ∧ s'.cancelled = false)
        ∧ s.received <+: urls.map (fetchResult get workerID)
          ∧ (s.worker = Worker.returned → s.received = urls.map (fetchResult get workerID)))
    ∧ (∀ url, ((fetchResult get workerID url).err ≠ none ↔ ∃ e, get url = Except.error e)
        ∧ ∀ r, get url = Except.ok r →
            fetchResult get workerID url
              = { workerID := workerID, url := url, resp := some r, err := none }) := by
  refine ⟨?_, ?_⟩
  · intro acts s hrun hc
    have hi := fetch_run_inv get workerID urls acts _ s (fetch_inv_init get workerID urls) hrun hc
    refine ⟨fun hr => ?_, ⟨s.worker.held ++ s.pending.map (fetchResult get workerID), ?_⟩,
      fetch_received_of_returned get workerID urls s hi⟩
    · obtain ⟨more, s', h1, h2, h3, -⟩ := fetch_completes get workerID urls _ s hi hc hr rfl
      exact ⟨more, s', h1, h2, h3⟩
    · rw [← List.append_assoc]
      exact hi.order
  · intro url
    constructor
    · cases h : get url with
      | error e => simp [fetchResult, h]
      | ok r => simp [fetchResult, h]
    · intro r h
      simp [fetchResult, h]

/-- C9 on the URLs `"a"`, `"bad"`, `"ccc"` with `sampleGet`: the failed fetch of
`"bad"` comes out as the second result and the third URL is still fetched. -/
theorem fetchURLs_results_in_order_witness :
    [({ workerID := 0, url := "a", resp := some 1, err := none } : Result Nat String),
      { workerID := 0, url := "", resp := none,
        err := some { workerID := 0, url := "bad", cause := "no such host" } },
      { workerID := 0, url := "ccc", resp := some 3, err := none }]
      = ["a", "bad", "ccc"].map (fetchResult sampleGet 0) :=
  ((fetchURLs_results_in_order sampleGet 0 ["a", "bad", "ccc"]).1
    [Act.recv, Act.send, Act.recv, Act.send, Act.recv, Act.closeUrls, Act.send, Act.eof]
    { pending := [], urlsClosed := true, worker := Worker.returned, cancelled := false
      received := [{ workerID := 0, url := "a", resp := some 1, err := none },
        { workerID := 0, url := "", resp := none,
          err := some { workerID := 0, url := "bad", cause := "no such host" } },
        { workerID := 0, url := "ccc", resp := some 3, err := none }]
      reading := true }
    (by decide) rfl).2.2 rfl

/-- C8 fails on the code, in two places.  `fanIn` called with a cancelled
context on one channel holding one file: once the relay has read the file it
is blocked in `out <- file`, and no enabled step makes it return or lowers the
WaitGroup counter.  `fetchURLs` on one URL, after the worker has received the
URL, the generator has closed `urlsChan` and `ctx` has been cancelled: the
worker is blocked in `out <- Result{...}`, no enabled step makes it return, and
once the consumer stops reading no step of any goroutine is enabled at all. -/
theorem cancellation_counterexample :
    (∃ s, run FanIn.step (FanOutPipeline.fanIn true [[{ Name := "a", Data := "x" }]])
          [FanIn.Act.recv 0] = some s
      ∧ s.ins.map (fun inp => inp.relay) = [FanIn.Relay.sending { Name := "a", Data := "x" }]
      ∧ s.wg = 1
      ∧ ∀ a s', FanIn.step s a = some s' →
          s'.ins.map (fun inp => inp.relay) ≠ [FanIn.Relay.returned] ∧ s'.wg = 1)
    ∧ ∃ s, run (step sampleGet 0) (fetchURLs ["a"]) [Act.recv, Act.closeUrls, Act.cancel] = some s
      ∧ s.cancelled = true
      ∧ s.worker = Worker.sending { workerID := 0, url := "a", resp := some 1, err := none }
      ∧ (∀ a s', step sampleGet 0 s a = some s' → s'.worker ≠ Worker.returned)
      ∧ ∃ t, step sampleGet 0 s Act.stopReading = some t ∧ ∀ a, step sampleGet 0 t a = none :=
  ⟨⟨{ ins := [{ pending := [], closed := false,
                relay := FanIn.Relay.sending { Name := "a", Data := "x" } }]
      wg := 1, finalizerDone := false, outClosed := false, received := [], panicked := false },
      by decide, rfl, rfl,
      fun a s' h => by
        cases a with
        | recv i => cases i <;> simp [FanIn.step] at h
        | closeIn i =>
          cases i with
          | zero =>
            simp only [FanIn.step, Bool.false_eq_true, ↓reduceIte, List.getElem?_cons_zero,
              List.set_cons_zero, Option.some.injEq] at h
            subst h
            simp
          | succ i => simp [FanIn.step] at h
        | eof i => cases i <;> simp [FanIn.step] at h
        | send i =>
          cases i with
          | zero =>
            simp only [FanIn.step, Bool.false_eq_true, ↓reduceIte, List.getElem?_cons_zero,
              List.set_cons_zero, Option.some.injEq] at h
            subst h
            simp
          | succ i => simp [FanIn.step] at h
        | closeOut => simp [FanIn.step] at h⟩,
    { pending := [], urlsClosed := true, cancelled := true, reading := true, received := []
      worker := Worker.sending { workerID := 0, url := "a", resp := some 1, err := none } },
    by decide, rfl, rfl,
    fun a s' h => by
      cases a <;> simp only [step, Option.some.injEq, reduceCtorEq] at h <;> subst h <;> simp,
    { pending := [], urlsClosed := true, cancelled := true, reading := false, received := []
      worker := Worker.sending { workerID := 0, url := "a", resp := some 1, err := none } },
    rfl, fun a => by cases a <;> rfl⟩

/-- C8 as the code has it.  Cancellation is raced at the two `select`
statements of url_fetcher_fan_out: in every state in which `ctx` is cancelled,
a worker of `fetchURLs` blocked in its `select` can return, closing its output,
and a generator blocked sending a URL can return, closing `urlsChan`.  The
calls `fanOut`, `fanIn` and `Execute` do the same whether `ctx` is cancelled or
not. -/
theorem cancellation_raced_at_selects {Resp Err : Type} (get : String → Except Err Resp)
    (workerID : Int) (s : State Resp Err) (hc : s.cancelled = true) :
    (s.worker = Worker.selecting →
        ∃ s', step get workerID s Act.ctxDone = some s' ∧ s'.worker = Worker.returned)
    ∧ (s.urlsClosed = false → s.pending ≠ [] →
        ∃ s', step get workerID s Act.genCancel = some s' ∧ s'.urlsClosed = true)
    ∧ (∀ (st : FanOutPipeline.Step) (workerCount : Int),
        FanOutPipeline.fanOut true st workerCount = FanOutPipeline.fanOut false st workerCount)
    ∧ (∀ channels, FanOutPipeline.fanIn true channels = FanOutPipeline.fanIn false channels)
    ∧ (∀ p numCPU files,
        FanOutPipeline.Execute p true numCPU files = FanOutPipeline.Execute p false numCPU files)
    ∧ (∀ p files, SeqPipeline.Execute p true files = SeqPipeline.Execute p false files) := by
  refine ⟨?_, ?_, fun _ _ => rfl, fun _ => rfl, fun _ _ _ => rfl, fun _ _ => rfl⟩
  · intro hw
    exact ⟨{ s with worker := Worker.returned }, by simp [step, hw, hc], rfl⟩
  · intro hcl hp
    cases hpend : s.pending with
    | nil => exact absurd hpend hp
    | cons u us =>
      exact ⟨{ s with pending := [], urlsClosed := true }, by simp [step, hpend, hcl, hc], rfl⟩

/-- C8 as the code has it, on a worker waiting in its `select` with one URL
still to come when `ctx` is cancelled. -/
theorem cancellation_raced_at_selects_witness :
    ∃ s', step sampleGet 0
        ({ pending := ["a"], urlsClosed := false, worker := Worker.selecting, cancelled := true
           received := [], reading := true } : State Nat String) Act.ctxDone = some s'
      ∧ s'.worker = Worker.returned :=
  (cancellation_raced_at_selects sampleGet 0
    { pending := ["a"], urlsClosed := false, worker := Worker.selecting, cancelled := true
      received := [], reading := true } rfl).1 rfl

end UrlFetcher

end GoPatterns
